import Mathlib

/-!
Verification of the gofeedforward feed-forward neural-network library.

The Go code works on `float64` slices.  We embed the numeric computations over
an arbitrary linear ordered field `α` (instantiated at `ℚ` for executable
statements and at `ℝ` for the sigmoid-range property, where the transcendental
`exp` is needed).  Floating-point rounding is not modelled; all claims treated
here are about the exact arithmetic structure of the code.

Go slices become Lean lists.  Methods with pointer receivers that mutate their
receiver are embedded in state-passing style: they return the updated
structure together with the original result.  Go runtime panics
(out-of-range indexing) are either modelled explicitly (in `Scale`, whose
claim's quantifiers can reach them) or noted in comments where the relevant
claims' hypotheses keep all indices in range.
-/

namespace Gofeedforward

/-- Errors returned by the library.  The Go code returns `error` values built
with `fmt.Errorf`; we keep the distinguishing data and drop the message
formatting. -/
inductive Err where
  /-- DotProduct: arguments of different length. -/
  | dotMismatch (l r : Nat)
  /-- Core.Process: expected `expected` inputs but got `got`. -/
  | coreProcess (expected got : Nat)
  /-- Core.Add: incompatible shapes. -/
  | coreAdd (ci co oi oo : Nat)
  /-- OneIteration: expected-output length disagrees with produced output length. -/
  | dataMismatch (expLen outLen : Nat)
  /-- Split: fraction outside [0,1]. -/
  | splitFraction
  deriving DecidableEq

variable {α : Type} [LinearOrderedField α]

/-- The summation loop of Go `DotProduct` (`sum += left[i]*right[i]`), used
after the length guard has passed. -/
def dotSum (left right : List α) : α :=
  (List.zipWith (fun a b => a * b) left right).foldl (fun s x => s + x) 0

/-- Go `DotProduct` (part_009): errors when the lengths differ, otherwise the
sum of the pointwise products.  (The Go version also returns NaN next to the
error; callers discard the value in that case.) -/
def DotProduct (left right : List α) : Except Err α :=
  if left.length ≠ right.length then .error (.dotMismatch left.length right.length)
  else .ok (dotSum left right)

/-- Core is a rectangular array of values used as weights (layer.go). -/
abbrev Core (α : Type) := List (List α)

/-- Go `MakeCore`: a zero matrix with `outputs` rows of `inputs` columns. -/
def MakeCore (inputs outputs : Nat) : Core α :=
  List.replicate outputs (List.replicate inputs 0)

/-- Go `Core.InputSize` = `len(c[0])`.  Go panics on an empty core; we return
the length of the default `[]`, i.e. `0`; all uses below are guarded by
non-emptiness assumptions matching the library's invariants. -/
def Core.InputSize (c : Core α) : Nat := (c.headD []).length

/-- Go `Core.OutputSize` = `len(c)`. -/
def Core.OutputSize (c : Core α) : Nat := c.length

/-- The row loop of Go `Core.Process`: for each row, error out when the row
length differs from the input length, otherwise take the dot product (whose
own error is impossible and discarded by `result[idx], _ = DotProduct(...)`). -/
def coreProcessRows (inputs : List α) : Core α → Except Err (List α)
  | [] => .ok []
  | row :: rest =>
    if row.length ≠ inputs.length then .error (.coreProcess row.length inputs.length)
    else
      match coreProcessRows inputs rest with
      | .error e => .error e
      | .ok tail => .ok (dotSum inputs row :: tail)

/-- Go `Core.Process`: matrix-vector multiplication with a per-row length
guard. -/
def Core.Process (c : Core α) (inputs : List α) : Except Err (List α) :=
  coreProcessRows inputs c

/-- The elementwise sum computed by Go `Core.Add` once its shape guard has
passed (for rectangular operands of equal shape `zipWith` coincides with the
Go double loop). -/
def coreAddVal (c other : Core α) : Core α :=
  List.zipWith (fun r1 r2 => List.zipWith (fun a b => a + b) r1 r2) c other

/-- Go `Core.Add`: guarded elementwise sum returning a fresh matrix.  The Go
guard only compares the first-row lengths and the row counts; for the ragged
(non-rectangular) matrices excluded by the library's invariants Go would
panic where `zipWith` truncates. -/
def Core.Add (c other : Core α) : Except Err (Core α) :=
  if c.InputSize ≠ other.InputSize ∨ c.OutputSize ≠ other.OutputSize then
    .error (.coreAdd c.InputSize c.OutputSize other.InputSize other.OutputSize)
  else .ok (coreAddVal c other)

/-- Go `Layer` (layer.go): weights plus the cached last inputs/outputs. -/
structure Layer (α : Type) where
  Weights : Core α
  Inputs : List α
  Outputs : List α
  deriving DecidableEq

/-- Go `MakeLayer`: weights sized `(inputs+1) × outputs`, nil caches. -/
def MakeLayer (inputs outputs : Nat) : Layer α :=
  { Weights := MakeCore (inputs + 1) outputs, Inputs := [], Outputs := [] }

/-- Go `Layer.Process` (pointer receiver: mutates the layer).  `sig` stands
for the `Sigmoid` transfer function; the concrete real-valued `Sigmoid` is
defined below.  Stores the raw inputs, appends the bias `1.0`, multiplies by
the weights, applies `sig` elementwise, and caches the output.  On error the
inputs cache has already been overwritten and the call returns the error. -/
def Layer.Process (sig : α → α) (l : Layer α) (inputs : List α) :
    Layer α × Except Err (List α) :=
  let l1 : Layer α := { l with Inputs := inputs }
  let biasedInputs := inputs ++ [1]
  match l1.Weights.Process biasedInputs with
  | .error e => (l1, .error e)
  | .ok outs =>
    let outs := outs.map sig
    ({ l1 with Outputs := outs }, .ok outs)

/-- Go `Layer.UpdateWeights`: `l.Weights, err = l.Weights.Add(updates)`.
Note that on a shape error Go assigns the nil result, wiping the weights. -/
def Layer.UpdateWeights (l : Layer α) (updates : Core α) : Layer α × Option Err :=
  match l.Weights.Add updates with
  | .ok w => ({ l with Weights := w }, none)
  | .error e => ({ l with Weights := [] }, some e)

/-- Go `Network` (network.go): the layers and the cached last output. -/
structure Network (α : Type) where
  Layers : List (Layer α)
  Outputs : List α
  deriving DecidableEq

/-- Go `MakeNetwork`: one layer per adjacent pair of sizes. -/
def MakeNetwork (sizes : List Nat) : Network α :=
  { Layers := (List.zip sizes sizes.tail).map (fun p => MakeLayer p.1 p.2),
    Outputs := [] }

/-- The layer loop of Go `Network.Process`: feed `temp` through each layer in
order, mutating the layers in place; stop at the first error. -/
def processLayers (sig : α → α) : List (Layer α) → List α →
    List (Layer α) × Except Err (List α)
  | [], temp => ([], .ok temp)
  | l :: rest, temp =>
    match l.Process sig temp with
    | (l1, .error e) => (l1 :: rest, .error e)
    | (l1, .ok out) =>
      match processLayers sig rest out with
      | (rest1, r) => (l1 :: rest1, r)

/-- Go `Network.Process`: clears the cached output, runs the layers, then
caches a copy of the final vector.  On error the cached output stays nil. -/
def Network.Process (sig : α → α) (n : Network α) (inputs : List α) :
    Network α × Except Err (List α) :=
  match processLayers sig n.Layers inputs with
  | (ls, .error e) => ({ Layers := ls, Outputs := [] }, .error e)
  | (ls, .ok temp) => ({ Layers := ls, Outputs := temp }, .ok temp)

/-- Go `Network.InputSize` = `len(n.Layers[0].Weights[0]) - 1` (bias
excluded).  Go panics on an empty network or empty weights; the defaults make
those read as `0`. -/
def Network.InputSize (n : Network α) : Nat :=
  Core.InputSize ((n.Layers.headD { Weights := [], Inputs := [], Outputs := [] }).Weights) - 1

/-- Go `Network.OutputSize` = row count of the last layer's weights. -/
def Network.OutputSize (n : Network α) : Nat :=
  Core.OutputSize ((n.Layers.getLastD { Weights := [], Inputs := [], Outputs := [] }).Weights)

/-- The real sigmoid `1 / (1 + e^{-x})` (part_009 `Sigmoid`). -/
noncomputable def Sigmoid (input : ℝ) : ℝ := 1 / (1 + Real.exp (-input))

/-- Go `TrainingDatum` (trainer.go): inputs and expected outputs. -/
structure TrainingDatum (α : Type) where
  Inputs : List α
  Expected : List α
  deriving DecidableEq

/-- Go `TrainingData`: an ordered collection of training datums. -/
abbrev TrainingData (α : Type) := List (TrainingDatum α)

/-- Go `CalcError` (part_009): per-unit squared differences, guarded by a
length check. -/
def CalcError (expected actual : List α) : Except Err (List α) :=
  if expected.length ≠ actual.length then
    .error (.dataMismatch expected.length actual.length)
  else .ok (List.zipWith (fun e a => (e - a) * (e - a)) expected actual)

/-- Go `SquaredError.Accumulate`: `sse[i] += new[i]` for `i < len(sse)`.  For
the equal-length vectors produced by the trainer `zipWith` coincides with the
Go loop (Go would panic if the second vector were shorter). -/
def SquaredError.Accumulate (sse other : List α) : List α :=
  List.zipWith (fun a b => a + b) sse other

/-- Go `SquaredError.Average`: divide each entry by the example count.  The
count-zero case (Go: NaN or Inf) is excluded by the claims' non-empty-data
hypotheses; in a field Lean's `x / 0 = 0`. -/
def SquaredError.Average (sse : List α) (nexample : Nat) : List α :=
  sse.map (fun x => x / (nexample : α))

/-- One simultaneous swap `td[left], td[right] = td[right], td[left]` of Go
`TrainingData.Shuffle`. -/
def swapAt (td : TrainingData α) (left right : Nat) : TrainingData α :=
  let a := td.getD left { Inputs := [], Expected := [] }
  let b := td.getD right { Inputs := [], Expected := [] }
  (td.set left b).set right a

/-- The inner loop of Go `Shuffle`: `n` remaining swaps, with `rand.Int()`
modelled by the oracle `rng` consumed at positions `k, k+1, ...`.  Go would
panic (`% 0`) on empty data; the claims below assume non-empty data. -/
def shuffleSwaps (rng : Nat → Nat) : Nat → Nat → TrainingData α → TrainingData α
  | _, 0, td => td
  | k, n + 1, td =>
    shuffleSwaps rng (k + 2) n (swapAt td (rng k % td.length) (rng (k + 1) % td.length))

/-- The round loop of Go `Shuffle`: each round performs `len(td)` swaps. -/
def shuffleRoundsLoop (rng : Nat → Nat) : Nat → Nat → TrainingData α → TrainingData α
  | _, 0, td => td
  | k, r + 1, td => shuffleRoundsLoop rng (k + 2 * td.length) r (shuffleSwaps rng k td.length td)

/-- Go `TrainingData.Shuffle(rounds)`, with the RNG as an explicit oracle. -/
def Shuffle (td : TrainingData α) (rounds : Nat) (rng : Nat → Nat) : TrainingData α :=
  shuffleRoundsLoop rng 0 rounds td

/-- Outcome of `Scale`: normal return, error return (with the offending
column), or a Go runtime panic (out-of-range index). -/
inductive ScaleOutcome where
  | ok
  | err (col : Int)
  | panic
  deriving DecidableEq

/-- Boolean view of the error outcome of `Scale`. -/
def ScaleOutcome.isErr : ScaleOutcome → Bool
  | .err _ => true
  | _ => false

/-- Read `ins[col]` with a Go `int` index: `none` models the runtime panic. -/
def getCol (ins : List α) (col : Int) : Option α :=
  if 0 ≤ col then ins.get? col.toNat else none

/-- Write `ins[col] = v` with a Go `int` index: `none` models the panic. -/
def setCol (ins : List α) (col : Int) (v : α) : Option (List α) :=
  if 0 ≤ col ∧ col.toNat < ins.length then some (ins.set col.toNat v) else none

/-- The min/max update of one row of the scan loop of Go `Scale`. -/
def scanRowLH (ins : List α) (low high : α) : List Int → Option (α × α)
  | [] => some (low, high)
  | c :: cs =>
    match getCol ins c with
    | none => none
    | some v => scanRowLH ins (if v < low then v else low) (if v > high then v else high) cs

/-- The full min/max scan loop of Go `Scale` over all rows. -/
def scanLowHigh (cols : List Int) (low high : α) : TrainingData α → Option (α × α)
  | [] => some (low, high)
  | d :: rest =>
    match scanRowLH d.Inputs low high cols with
    | none => none
    | some lh => scanLowHigh cols lh.1 lh.2 rest

/-- The write loop of Go `Scale` over the columns of one row.  The second
component is `false` when an index panics; the partially-written row is kept,
matching the in-place Go writes performed before the panic. -/
def scaleRow (ins : List α) (low high : α) : List Int → List α × Bool
  | [] => (ins, true)
  | c :: cs =>
    match getCol ins c with
    | none => (ins, false)
    | some v =>
      match setCol ins c ((v - low) / (high - low)) with
      | none => (ins, false)
      | some ins1 => scaleRow ins1 low high cs

/-- The write loop of Go `Scale` over all rows. -/
def scaleRows (cols : List Int) (low high : α) : TrainingData α → TrainingData α × Bool
  | [] => ([], true)
  | d :: rest =>
    match scaleRow d.Inputs low high cols with
    | (ins1, false) => ({ d with Inputs := ins1 } :: rest, false)
    | (ins1, true) =>
      match scaleRows cols low high rest with
      | (rest1, ok) => ({ d with Inputs := ins1 } :: rest1, ok)

/-- The post-validation part of `Scale`: seed the min/max from
`td[0].Inputs[cols[0]]` (panic when `cols` is empty), scan all rows, then
rewrite the selected columns in place. -/
def scaleBody (d0 : TrainingDatum α) (rest : TrainingData α) :
    List Int → TrainingData α × ScaleOutcome
  | [] => (d0 :: rest, .panic)
  | c0 :: cs =>
    match getCol d0.Inputs c0 with
    | none => (d0 :: rest, .panic)
    | some v0 =>
      match scanLowHigh (c0 :: cs) v0 v0 (d0 :: rest) with
      | none => (d0 :: rest, .panic)
      | some lh =>
        match scaleRows (c0 :: cs) lh.1 lh.2 (d0 :: rest) with
        | (td1, ok) => (td1, if ok then .ok else .panic)

/-- Go `TrainingData.Scale(cols...)` in state-passing style: returns the data
after the call together with the outcome.  The validation loop reads
`len(td[0].Inputs)` (panic on empty data, when `cols` is non-empty) and the
min/max seed reads `td[0].Inputs[cols[0]]` (panic when `cols` is empty).
When `max == min` the Go code divides by zero (producing non-finite floats);
in the field embedding `x / 0 = 0`; no claim depends on that case. -/
def Scale (td : TrainingData α) (cols : List Int) : TrainingData α × ScaleOutcome :=
  match td, cols with
  | [], [] => ([], .panic)
  | [], _ :: _ => ([], .panic)
  | d0 :: rest, cols =>
    match cols.find? (fun col => decide ((d0.Inputs.length : Int) ≤ col ∨ col < 0)) with
    | some c => (d0 :: rest, .err c)
    | none => scaleBody d0 rest cols

/-- Go `TrainingData.Split(fraction)`: `td[:ceil(n*fraction)]` and the rest;
errors when the fraction is outside `[0, 1]`. -/
def Split [FloorRing α] (td : TrainingData α) (fraction : α) :
    Except Err (TrainingData α × TrainingData α) :=
  if fraction > 1 ∨ fraction < 0 then .error .splitFraction
  else
    let leftCount := (Int.ceil ((td.length : α) * fraction)).toNat
    .ok (td.take leftCount, td.drop leftCount)

/-- Go `calculateDeltas` (trainer.go:130).  Note the double loop: every
`nextDeltas` entry is multiplied by EVERY weight in the input's column, i.e.
`sum = (Σ_d nextDeltas[d]) * (Σ_w Weights[w][j])`. -/
def calculateDeltas (nextDeltas : List α) (layer : Layer α) : List α :=
  (List.range layer.Inputs.length).map (fun nextLayerInputIdx =>
    let sum := nextDeltas.foldl
      (fun s d =>
        layer.Weights.foldl (fun s2 row => s2 + d * row.getD nextLayerInputIdx 0) s) 0
    sum * layer.Inputs.getD nextLayerInputIdx 0
      * (1 - layer.Inputs.getD nextLayerInputIdx 0))

/-- The hidden-layer delta formula as the specification states it (spec
section 4.4 step 3e).  Modelled from the spec: each component `j` is
`(Σ over next-layer units u, weight[u][j] * nextDelta[u])` scaled by the local
sigmoid derivative `input_j * (1 - input_j)`.  This is the comparison point
for `calculateDeltas`; it pairs each downstream delta with the single weight
connecting input `j` to that unit. -/
def calculateDeltasSpec (nextDeltas : List α) (layer : Layer α) : List α :=
  (List.range layer.Inputs.length).map (fun j =>
    let sum := (List.zip nextDeltas layer.Weights).foldl
      (fun s p => s + p.1 * p.2.getD j 0) 0
    sum * layer.Inputs.getD j 0 * (1 - layer.Inputs.getD j 0))

/-- Go `calculateUpdate` (trainer.go:144):
`update[row][col] = biasedInputs[col] * deltas[row] * -alpha`.  The Go code
allocates `MakeCore(InputSize, OutputSize)` and loops over the actual rows of
`layer.Weights`; for the rectangular weights guaranteed by the claims'
hypotheses the two shapes coincide, and the embedding mirrors the weights'
own shape. -/
def calculateUpdate (layer : Layer α) (deltas : List α) (alpha : α) : Core α :=
  let biasedInputs := layer.Inputs ++ [1]
  (List.range layer.Weights.length).map (fun row =>
    (List.range ((layer.Weights.getD row []).length)).map (fun col =>
      biasedInputs.getD col 0 * deltas.getD row 0 * (-alpha)))

/-- The output-layer delta assignment of `OneIteration`:
`(outputs[i] - expected[i]) * outputs[i] * (1 - outputs[i])`. -/
def outputDeltas (outputs expected : List α) : List α :=
  List.zipWith (fun o e => (o - e) * o * (1 - o)) outputs expected

/-- The backward loop `deltas[i] = calculateDeltas(deltas[i+1], layers[i+1])`
of `OneIteration`, producing the per-layer delta vectors (index `i` of the
result belongs to layer `i`; the last entry is the output-layer delta). -/
def backwardDeltas : List (Layer α) → List α → List (List α)
  | [], _ => []
  | [_], dLast => [dLast]
  | _ :: next :: rest, dLast =>
    let tail := backwardDeltas (next :: rest) dLast
    calculateDeltas (tail.headD []) next :: tail

/-- The per-layer update loop of `OneIteration`: in online mode apply each
update immediately (its `UpdateWeights` error is discarded by the Go code);
in batch mode fold it into the accumulator, aborting on an `Add` error (Go
then stores the nil result into the accumulator before returning). -/
def updateLayersLoop (batch : Bool) (alpha : α) :
    List (Layer α) → List (List α) → List (Core α) →
    List (Layer α) × List (Core α) × Option Err
  | [], _, us => ([], us, none)
  | l :: ls, ds, us =>
    let update := calculateUpdate l (ds.headD []) alpha
    if batch then
      match (us.headD []).Add update with
      | .error e => (l :: ls, [] :: us.tail, some e)
      | .ok u2 =>
        match updateLayersLoop batch alpha ls ds.tail us.tail with
        | (ls2, us2, e) => (l :: ls2, u2 :: us2, e)
    else
      let lu := (l.UpdateWeights update).1
      match updateLayersLoop batch alpha ls ds.tail us.tail with
      | (ls2, _, e) => (lu :: ls2, us, e)

/-- The per-example loop of Go `OneIteration`, threading the network, the
batch accumulators and the running squared-error total.  Go preallocates a
per-layer `deltas` array whose every entry read is rewritten within each
example (output deltas are fully overwritten, hidden deltas reassigned
wholesale), so the embedding recomputes them afresh per example. -/
def oneIterLoop (sig : α → α) (alpha : α) (batch : Bool) :
    Network α → List (Core α) → List α → TrainingData α →
    Network α × List (Core α) × List α × Option Err
  | net, us, total, [] => (net, us, total, none)
  | net, us, total, datum :: rest =>
    match net.Process sig datum.Inputs with
    | (net1, .error e) => (net1, us, total, some e)
    | (net1, .ok outputs) =>
      if datum.Expected.length ≠ outputs.length then
        (net1, us, total, some (.dataMismatch datum.Expected.length outputs.length))
      else
        let sse := List.zipWith (fun e a => (e - a) * (e - a)) datum.Expected outputs
        let total1 := SquaredError.Accumulate total sse
        let ds := backwardDeltas net1.Layers (outputDeltas outputs datum.Expected)
        match updateLayersLoop batch alpha net1.Layers ds us with
        | (ls2, us2, some e) => ({ net1 with Layers := ls2 }, us2, total1, some e)
        | (ls2, us2, none) =>
          oneIterLoop sig alpha batch { net1 with Layers := ls2 } us2 total1 rest

/-- The final batch application loop of `OneIteration`
(`net.Layers[idx].UpdateWeights(updates[idx])`, errors discarded). -/
def applyBatchUpdates : List (Layer α) → List (Core α) → List (Layer α)
  | [], _ => []
  | l :: ls, us => (l.UpdateWeights (us.headD [])).1 :: applyBatchUpdates ls us.tail

/-- The batch-mode accumulators of `OneIteration`: one zero matrix shaped
like each layer's weights. -/
def initUpdates (net : Network α) : List (Core α) :=
  net.Layers.map (fun l => MakeCore l.Weights.InputSize l.Weights.OutputSize)

/-- The scalar fields of Go `Trainer` (trainer.go:49): the termination flag,
learning rate and the two mode settings. -/
structure TrainerState (α : Type) where
  requestTerminate : Bool
  Alpha : α
  BatchUpdate : Bool
  ShuffleRounds : Nat
  deriving DecidableEq

/-- Go `IterationCallback`: receives the trainer (by pointer — modelled as a
state transformer over the scalar trainer fields; re-registering handlers
from inside a callback is not modelled, no claim depends on it), the
iteration's squared error (`none` on error), the iteration number and the
error. -/
def IterationCallback (α : Type) :=
  TrainerState α → Option (List α) → Nat → Option Err → TrainerState α

/-- Go `TrainingCallback`: a trainer-state transformer. -/
def TrainingCallback (α : Type) := TrainerState α → TrainerState α

/-- Go `Trainer`: the three handler lists plus the scalar state. -/
structure Trainer (α : Type) where
  endOfIterationHandlers : List (IterationCallback α)
  startTrainingHandlers : List (TrainingCallback α)
  endTrainingHandlers : List (TrainingCallback α)
  toState : TrainerState α

/-- The `if t.ShuffleRounds > 0 { data.Shuffle(...) }` step of
`OneIteration`: the data actually iterated over. -/
def shuffledData (t : TrainerState α) (rng : Nat → Nat) (data : TrainingData α) :
    TrainingData α :=
  if t.ShuffleRounds > 0 then Shuffle data t.ShuffleRounds rng else data

/-- Go `Trainer.OneIteration` (trainer.go:157).  The Go method takes the
trainer by value and reads only `Alpha`, `BatchUpdate` and `ShuffleRounds`,
so the embedding takes the scalar trainer state; `rng` is the oracle for the
optional shuffle.  Returns the updated network and the averaged squared
error, or the first error. -/
def Trainer.OneIteration (sig : α → α) (t : TrainerState α) (rng : Nat → Nat)
    (net : Network α) (data : TrainingData α) : Network α × Except Err (List α) :=
  let updates := initUpdates net
  let data := shuffledData t rng data
  let total : List α := List.replicate (Network.OutputSize net) 0
  match oneIterLoop sig t.Alpha t.BatchUpdate net updates total data with
  | (net1, _, _, some e) => (net1, .error e)
  | (net1, us, total1, none) =>
    let net2 := if t.BatchUpdate then { net1 with Layers := applyBatchUpdates net1.Layers us } else net1
    (net2, .ok (SquaredError.Average total1 data.length))

/-- Observable events of a `Train` run, used to state which callbacks run
and in which order.  `iterBegin` records the learning rate in force when an
iteration starts; the callback events record the handler's position in its
list together with the arguments the Go code passes. -/
inductive TrainEvent (α : Type) where
  | trainStart (idx : Nat)
  | iterBegin (alpha : α) (iteration : Nat)
  | iterEnd (idx : Nat) (iteration : Nat) (err : Option Err)
  | trainEnd (idx : Nat)
  deriving DecidableEq

/-- The loop over `startTrainingHandlers` in `Train`, with an event per
invocation. -/
def runStartHandlers : List (TrainingCallback α) → TrainerState α → Nat →
    TrainerState α × List (TrainEvent α)
  | [], ts, _ => (ts, [])
  | h :: hs, ts, idx =>
    match runStartHandlers hs (h ts) (idx + 1) with
    | (ts1, evs) => (ts1, .trainStart idx :: evs)

/-- The loop over `endOfIterationHandlers` in `Train`: every handler receives
the squared error (`none` on a failed iteration), the iteration number and
the error. -/
def runIterHandlers : List (IterationCallback α) → TrainerState α →
    Option (List α) → Nat → Option Err → Nat → TrainerState α × List (TrainEvent α)
  | [], ts, _, _, _, _ => (ts, [])
  | h :: hs, ts, mse, iteration, err, idx =>
    match runIterHandlers hs (h ts mse iteration err) mse iteration err (idx + 1) with
    | (ts1, evs) => (ts1, .iterEnd idx iteration err :: evs)

/-- The loop over `endTrainingHandlers` in `Train`. -/
def runEndHandlers : List (TrainingCallback α) → TrainerState α → Nat →
    TrainerState α × List (TrainEvent α)
  | [], ts, _ => (ts, [])
  | h :: hs, ts, idx =>
    match runEndHandlers hs (h ts) (idx + 1) with
    | (ts1, evs) => (ts1, .trainEnd idx :: evs)

/-- The unbounded `for` loop of Go `Train`, run on `fuel` iterations at most
(the Go loop has no iteration cap; `none` in the last component means the
fuel ran out with the loop still going).  `some (some e)` is the `return err`
exit, `some none` the `break` taken when a callback requested termination.
`rngs i` is the shuffle oracle of iteration `i`. -/
def trainLoop (sig : α → α) (rngs : Nat → Nat → Nat)
    (handlers : List (IterationCallback α)) :
    Nat → TrainerState α → Network α → TrainingData α → Nat →
    TrainerState α × Network α × List (TrainEvent α) × Option (Option Err)
  | 0, ts, net, _, _ => (ts, net, [], none)
  | fuel + 1, ts, net, td, iteration0 =>
    let iteration := iteration0 + 1
    match Trainer.OneIteration sig ts (rngs iteration) net td with
    | (net1, res) =>
      let mse : Option (List α) := match res with | .ok m => some m | .error _ => none
      let err : Option Err := match res with | .ok _ => none | .error e => some e
      match runIterHandlers handlers ts mse iteration err 0 with
      | (ts1, evs) =>
        let evs := TrainEvent.iterBegin ts.Alpha iteration :: evs
        match err with
        | some e => (ts1, net1, evs, some (some e))
        | none =>
          if ts1.requestTerminate then (ts1, net1, evs, some none)
          else
            match trainLoop sig rngs handlers fuel ts1 net1 td iteration with
            | (ts2, net2, evs2, r) => (ts2, net2, evs ++ evs2, r)

/-- Go `Trainer.Train` (trainer.go:257): default the learning rate when it is
zero, run the start handlers, run the loop, and — only when the loop exits by
`break` — run the end-of-training handlers.  The `return err` path on a
failed iteration leaves the function before the end handlers run. -/
def Trainer.Train (sig : α → α) (rngs : Nat → Nat → Nat) (fuel : Nat) (t : Trainer α)
    (net : Network α) (td : TrainingData α) :
    TrainerState α × Network α × List (TrainEvent α) × Option (Option Err) :=
  let ts0 := if t.toState.Alpha = 0 then { t.toState with Alpha := 1 / 10 } else t.toState
  match runStartHandlers t.startTrainingHandlers ts0 0 with
  | (ts1, evs0) =>
    match trainLoop sig rngs t.endOfIterationHandlers fuel ts1 net td 0 with
    | (ts2, net2, evs1, some (some e)) => (ts2, net2, evs0 ++ evs1, some (some e))
    | (ts2, net2, evs1, some none) =>
      match runEndHandlers t.endTrainingHandlers ts2 0 with
      | (ts3, evs2) => (ts3, net2, evs0 ++ evs1 ++ evs2, some none)
    | (ts2, net2, evs1, none) => (ts2, net2, evs0 ++ evs1, none)

/-- A matrix is rectangular: every row has the first row's length.  This is
the data-model invariant (spec section 3) under which the Go index loops stay
in range. -/
def coreRect (c : Core α) : Bool :=
  c.all (fun row => row.length == c.InputSize)

/-- A matrix has exactly `rows` rows of `cols` entries each. -/
def coreRectWith (c : Core α) (rows cols : Nat) : Bool :=
  (c.length == rows) && c.all (fun row => row.length == cols)

/-- The weight matrices of a network chain from `i` inputs to `o` outputs:
each is rectangular and non-empty, expects its predecessor's output plus the
bias, and the last produces `o` values. -/
def coresChain : List (Core α) → Nat → Nat → Bool
  | [], i, o => i == o
  | c :: rest, i, o =>
    (c.OutputSize != 0) && coreRect c && (c.InputSize == i + 1)
      && coresChain rest c.OutputSize o

/-- Shape-consistency of a network (spec section 3): a non-empty chain of
well-formed layers from `inSz` inputs to `outSz` outputs. -/
def Network.wf (net : Network α) (inSz outSz : Nat) : Bool :=
  !net.Layers.isEmpty && coresChain (net.Layers.map (fun l => l.Weights)) inSz outSz

/-- A training example fits a network of the given input/output sizes. -/
def datumFits (inSz outSz : Nat) (d : TrainingDatum α) : Bool :=
  (d.Inputs.length == inSz) && (d.Expected.length == outSz)

/-- The update matrices `OneIteration` computes for a single example when the
forward pass starts from the given network: forward pass, output deltas,
backward deltas, then `calculateUpdate` per layer.  Used to state the batch
accumulation property (claim C3: in batch mode every example is processed
against the iteration's initial weights). -/
def perExampleUpdates (sig : α → α) (alpha : α) (net : Network α)
    (d : TrainingDatum α) : List (Core α) :=
  match Network.Process sig net d.Inputs with
  | (net1, .ok outputs) =>
    List.zipWith (fun l dl => calculateUpdate l dl alpha) net1.Layers
      (backwardDeltas net1.Layers (outputDeltas outputs d.Expected))
  | (_, .error _) => []

/-- The elementwise sum of the per-example update matrices over a data set
(per layer, starting from the zero accumulators). -/
def accumulatedUpdates (sig : α → α) (alpha : α) (net : Network α)
    (data : TrainingData α) : List (Core α) :=
  data.foldl
    (fun acc d => List.zipWith coreAddVal acc (perExampleUpdates sig alpha net d))
    (initUpdates net)

/-- A heap of allocated matrices.  Go slices are references into backing
storage; to state the freshness/aliasing claim about `Core.Add` we model the
storage explicitly: a matrix value is an index into the store. -/
abbrev Store := List (Core ℚ)

/-- Heap-level rendering of Go `Core.Add` (layer.go:90): read both operands,
validate the shapes, allocate a fresh result (`result := MakeCore(...)`
followed by writes into `result` only) and return a reference to it.  The
arithmetic is exactly `Core.Add`; the store grows by the one fresh cell. -/
def Core.AddAlloc (s : Store) (c other : Nat) : Store × Except Err Nat :=
  match (s.getD c []).Add (s.getD other []) with
  | .error e => (s, .error e)
  | .ok r => (s ++ [r], .ok s.length)

/-- Heap-level rendering of Go `Layer.UpdateWeights` (layer.go:137): the
layer's weights reference is replaced by the reference `Add` returned
(`none` models the nil weights Go assigns on the error path). -/
def Layer.UpdateWeightsAlloc (s : Store) (wref uref : Nat) :
    Store × Option Nat × Option Err :=
  match Core.AddAlloc s wref uref with
  | (s1, .ok r) => (s1, some r, none)
  | (s1, .error e) => (s1, none, some e)

/-- A next-layer state with two units, used to exhibit the `calculateDeltas`
divergence: weights `[[1,0],[2,0]]` (two rows = two units, column 0 is the
weight from the single input, column 1 the bias weight), cached input `1/2`,
and incoming deltas `[1, 0]`. -/
def layerTwoOut : Layer ℚ :=
  { Weights := [[1, 0], [2, 0]], Inputs := [1/2], Outputs := [] }

/-- A five-element data set for the `Split` rounding check. -/
def tdFive : TrainingData ℚ :=
  [⟨[1], [1]⟩, ⟨[2], [2]⟩, ⟨[3], [3]⟩, ⟨[4], [4]⟩, ⟨[5], [5]⟩]

/-- A two-column data set for the `Scale` witness. -/
def tdTwo : TrainingData ℚ := [⟨[1, 10], [0]⟩, ⟨[3, 20], [0]⟩]

/-- A one-layer network with one input and one output
(weights row `[2, 3]`: input weight 2, bias 3). -/
def cNet : Network ℚ :=
  { Layers := [{ Weights := [[2, 3]], Inputs := [], Outputs := [] }], Outputs := [] }

/-- A trainer with one (identity) iteration-end handler and one end-training
handler whose effect (setting `ShuffleRounds` to 42) makes an invocation of
the end-training handlers observable in the final trainer state. -/
def cTrainer : Trainer ℚ :=
  { endOfIterationHandlers := [fun ts _ _ _ => ts],
    startTrainingHandlers := [],
    endTrainingHandlers := [fun ts => { ts with ShuffleRounds := 42 }],
    toState :=
      { requestTerminate := false, Alpha := 0, BatchUpdate := false, ShuffleRounds := 0 } }

/-- A datum whose empty input vector makes the forward pass fail against
`cNet` (the weights row expects 2 biased inputs, the biased vector has 1). -/
def cBadDatum : TrainingDatum ℚ := { Inputs := [], Expected := [0] }

/-- A batch-mode trainer state with learning rate 1, used in concrete runs. -/
def tsBatch : TrainerState ℚ :=
  { requestTerminate := false, Alpha := 1, BatchUpdate := true, ShuffleRounds := 0 }

/-- A fixed all-zero RNG oracle for concrete runs. -/
def zeroRng : Nat → Nat := fun _ => 0

/-- A fixed all-zero per-iteration RNG oracle family for concrete runs. -/
def zeroRngs : Nat → Nat → Nat := fun _ _ => 0

/-- The identity function over ℚ, used to instantiate the universally
quantified transfer function in concrete runs (the theorems below hold for
every transfer function). -/
def idSig : ℚ → ℚ := fun x => x

/-! Forward-pass lemmas. -/

theorem layer_process_weights (sig : α → α) (l : Layer α) (t : List α) :
    ((Layer.Process sig l t).1).Weights = l.Weights := by
  simp only [Layer.Process]
  split <;> rfl

theorem processLayers_weights (sig : α → α) (ls : List (Layer α)) :
    ∀ t, (processLayers sig ls t).1.map (fun l => l.Weights)
      = ls.map (fun l => l.Weights) := by
  induction ls with
  | nil => intro t; rfl
  | cons l ls ih =>
    intro t
    have hw := layer_process_weights sig l t
    simp only [processLayers]
    cases hp : Layer.Process sig l t with
    | mk l1 r =>
      rw [hp] at hw
      cases r with
      | error e =>
        simp only [List.map_cons, List.cons.injEq]
        exact ⟨hw, trivial⟩
      | ok out =>
        simp only [List.map_cons, List.cons.injEq]
        exact ⟨hw, ih out⟩

theorem processLayers_congr (sig : α → α) :
    ∀ (ls1 ls2 : List (Layer α)) (t : List α),
      ls1.map (fun l => l.Weights) = ls2.map (fun l => l.Weights) →
      (processLayers sig ls1 t).2 = (processLayers sig ls2 t).2 ∧
      (∀ out, (processLayers sig ls1 t).2 = .ok out →
        (processLayers sig ls1 t).1 = (processLayers sig ls2 t).1) := by
  intro ls1
  induction ls1 with
  | nil =>
    intro ls2 t hmap
    cases ls2 with
    | nil => exact ⟨rfl, fun _ _ => rfl⟩
    | cons a b => simp at hmap
  | cons l1 tl1 ih =>
    intro ls2 t hmap
    cases ls2 with
    | nil => simp at hmap
    | cons l2 tl2 =>
      simp only [List.map_cons, List.cons.injEq] at hmap
      obtain ⟨hw, htl⟩ := hmap
      simp only [processLayers, Layer.Process, hw]
      cases hcp : Core.Process l2.Weights (t ++ [1]) with
      | error e => simp
      | ok outs =>
        obtain ⟨h2, h1⟩ := ih tl2 (List.map sig outs) htl
        refine ⟨h2, fun out hout => ?_⟩
        have hout1 : (processLayers sig tl1 (List.map sig outs)).2 = Except.ok out := hout
        simp [h1 out hout1]

theorem network_process_layers (sig : α → α) (n : Network α) (t : List α) :
    (Network.Process sig n t).1.Layers = (processLayers sig n.Layers t).1 := by
  simp only [Network.Process]
  cases hp : processLayers sig n.Layers t with
  | mk ls r => cases r <;> simp

theorem network_process_snd (sig : α → α) (n : Network α) (t : List α) :
    (Network.Process sig n t).2 = (processLayers sig n.Layers t).2 := by
  simp only [Network.Process]
  cases hp : processLayers sig n.Layers t with
  | mk ls r => cases r <;> simp

/-- C8: for every network and every input vector of the network's input
size, running `Network.Process` twice with the same input and no intervening
weight change returns the same result both times: the cached last
inputs/outputs written by the first run do not influence the second run's
output. -/
theorem Process_idempotent (sig : α → α) (net : Network α) (ins : List α)
    (h : ins.length = Network.InputSize net) :
    (Network.Process sig (Network.Process sig net ins).1 ins).2
      = (Network.Process sig net ins).2 := by
  have h1 : (Network.Process sig net ins).1.Layers.map (fun l => l.Weights)
      = net.Layers.map (fun l => l.Weights) := by
    rw [network_process_layers]
    exact processLayers_weights sig net.Layers ins
  have h2 := (processLayers_congr sig ((Network.Process sig net ins).1.Layers)
    net.Layers ins h1).1
  rw [network_process_snd, network_process_snd, h2]

/-- Witness for C8 at a concrete network and input. -/
theorem Process_idempotent_witness :
    ([(1 : ℚ)].length = Network.InputSize cNet) ∧
      (Network.Process (fun x => x) (Network.Process (fun x => x) cNet [1]).1 [1]).2
        = (Network.Process (fun x => x) cNet [1]).2 :=
  ⟨by decide, Process_idempotent (fun x => x) cNet [1] (by decide)⟩

/-! Sigmoid range and the layer forward-pass contract. -/

theorem sigmoid_pos_lt_one (x : ℝ) : 0 < Sigmoid x ∧ Sigmoid x < 1 := by
  unfold Sigmoid
  have h := Real.exp_pos (-x)
  constructor
  · positivity
  · rw [div_lt_one (by positivity)]
    linarith

theorem coreProcessRows_ok (inputs : List α) :
    ∀ c : Core α, (∀ row ∈ c, row.length = inputs.length) →
      coreProcessRows inputs c = .ok (c.map (fun row => dotSum inputs row)) := by
  intro c
  induction c with
  | nil => intro h; rfl
  | cons row rest ih =>
    intro h
    have hr : row.length = inputs.length := h row (by simp)
    simp only [coreProcessRows]
    rw [if_neg (by simp [hr]), ih (fun r hm => h r (by simp [hm]))]
    rfl

/-- C6: for every layer whose weight rows all have length one more than the
input vector (the layer's configured input size, bias included),
`Layer.Process` with the real sigmoid succeeds, returns exactly one value
per output unit, and every returned value lies strictly between 0 and 1. -/
theorem layer_process_range (l : Layer ℝ) (ins : List ℝ)
    (hrect : ∀ row ∈ l.Weights, row.length = ins.length + 1) :
    ∃ outs, (Layer.Process Sigmoid l ins).2 = .ok outs ∧
      outs.length = Core.OutputSize l.Weights ∧
      ∀ x ∈ outs, 0 < x ∧ x < 1 := by
  have hlen : ∀ row ∈ l.Weights, row.length = (ins ++ [1]).length := by
    intro row hm
    simpa using hrect row hm
  have hok := coreProcessRows_ok (ins ++ [(1 : ℝ)]) l.Weights hlen
  refine ⟨(l.Weights.map (fun row => dotSum (ins ++ [1]) row)).map Sigmoid, ?_, ?_, ?_⟩
  · simp only [Layer.Process, Core.Process, hok]
  · simp [Core.OutputSize]
  · intro x hx
    simp only [List.mem_map] at hx
    obtain ⟨y, _, rfl⟩ := hx
    exact sigmoid_pos_lt_one y

/-- Witness for C6 at a one-input one-output zero layer. -/
theorem layer_process_range_witness :
    (∀ row ∈ ({ Weights := [[0, 0]], Inputs := [], Outputs := [] } : Layer ℝ).Weights,
        row.length = [(0 : ℝ)].length + 1) ∧
      ∃ outs,
        (Layer.Process Sigmoid
            { Weights := [[0, 0]], Inputs := [], Outputs := [] } [(0 : ℝ)]).2 = .ok outs ∧
        outs.length = Core.OutputSize
            ({ Weights := [[0, 0]], Inputs := [], Outputs := [] } : Layer ℝ).Weights ∧
        ∀ x ∈ outs, 0 < x ∧ x < 1 :=
  ⟨by simp, layer_process_range { Weights := [[0, 0]], Inputs := [], Outputs := [] }
    [(0 : ℝ)] (by simp)⟩

/-! Split, Scale, calculateDeltas, and the heap-level Add. -/

/-- C5: `Split` errors exactly when the fraction is outside [0,1]; otherwise
it returns the first `ceil(n*fraction)` elements on the left and the
remaining `n - ceil(n*fraction)` on the right, in the data's order. -/
theorem Split_spec (td : TrainingData ℚ) (f : ℚ) :
    ((Split td f = .error .splitFraction) ↔ (f < 0 ∨ 1 < f)) ∧
    (0 ≤ f → f ≤ 1 →
      ∃ l r, Split td f = .ok (l, r) ∧
        l.length = (Int.ceil ((td.length : ℚ) * f)).toNat ∧
        r.length = td.length - (Int.ceil ((td.length : ℚ) * f)).toNat ∧
        l ++ r = td) := by
  constructor
  · constructor
    · intro h
      by_contra hc
      push_neg at hc
      unfold Split at h
      rw [if_neg (by push_neg; exact ⟨by linarith [hc.2], by linarith [hc.1]⟩)] at h
      simp at h
    · intro hc
      unfold Split
      rw [if_pos (by tauto)]
  · intro h0 h1
    have hle : (Int.ceil ((td.length : ℚ) * f)).toNat ≤ td.length := by
      rw [Int.toNat_le, Int.ceil_le]
      calc ((td.length : ℚ) * f) ≤ (td.length : ℚ) * 1 :=
            mul_le_mul_of_nonneg_left h1 (by positivity)
      _ = ((td.length : Int) : ℚ) := by push_cast; ring
    refine ⟨td.take (Int.ceil ((td.length : ℚ) * f)).toNat,
      td.drop (Int.ceil ((td.length : ℚ) * f)).toNat, ?_, ?_, ?_, ?_⟩
    · unfold Split
      rw [if_neg (by push_neg; exact ⟨by linarith, by linarith⟩)]
    · simpa [List.length_take] using Nat.min_eq_left hle
    · simp [List.length_drop]
    · exact List.take_append_drop _ td

/-- Witness for C5: splitting five elements at one half gives three and two. -/
theorem Split_spec_witness :
    (0 : ℚ) ≤ 1/2 ∧ (1 : ℚ)/2 ≤ 1 ∧
      ∃ l r, Split tdFive (1/2) = .ok (l, r) ∧ l.length = 3 ∧ r.length = 2 := by
  refine ⟨by norm_num, by norm_num, ?_⟩
  obtain ⟨l, r, heq, hl, hr, _⟩ := (Split_spec tdFive (1/2)).2 (by norm_num) (by norm_num)
  have hc3 : (Int.ceil ((tdFive.length : ℚ) * (1 / 2))).toNat = 3 := by
    have h5 : ((tdFive.length : ℚ) * (1 / 2)) = 5 / 2 := by norm_num [tdFive]
    have hceil : (Int.ceil ((5 : ℚ) / 2)) = 3 := by
      rw [Int.ceil_eq_iff]
      constructor <;> norm_num
    rw [h5, hceil]
    rfl
  refine ⟨l, r, heq, ?_, ?_⟩
  · rw [hl, hc3]
  · rw [hr, hc3]
    decide

/-- C4: for non-empty data of uniform input width `n`, `Scale` returns an
error exactly when some requested column index is negative or at least `n`,
and on the error path the data is unmodified. -/
theorem Scale_error_iff (td : TrainingData ℚ) (cols : List Int) (n : Nat)
    (hne : td ≠ []) (hlen : ∀ d ∈ td, d.Inputs.length = n) :
    (((Scale td cols).2.isErr = true) ↔ ∃ c ∈ cols, c < 0 ∨ (n : Int) ≤ c) ∧
    ((Scale td cols).2.isErr = true → (Scale td cols).1 = td) := by
  obtain ⟨d0, rest, rfl⟩ : ∃ d0 rest, td = d0 :: rest := by
    cases td with
    | nil => exact absurd rfl hne
    | cons a b => exact ⟨a, b, rfl⟩
  have hd0 : d0.Inputs.length = n := hlen d0 (by simp)
  have hpred : ∀ c : Int,
      (decide ((d0.Inputs.length : Int) ≤ c ∨ c < 0) = true) ↔ (c < 0 ∨ (n : Int) ≤ c) := by
    intro c
    rw [hd0, decide_eq_true_iff]
    tauto
  simp only [Scale]
  cases hfind : cols.find? (fun col => decide ((d0.Inputs.length : Int) ≤ col ∨ col < 0)) with
  | some c =>
    have hmem : c ∈ cols := List.mem_of_find?_eq_some hfind
    have hc := List.find?_some hfind
    refine ⟨⟨fun _ => ⟨c, hmem, (hpred c).mp hc⟩, fun _ => rfl⟩, fun _ => rfl⟩
  | none =>
    have hno : ∀ c ∈ cols, ¬(c < 0 ∨ (n : Int) ≤ c) := by
      intro c hc
      have := List.find?_eq_none.mp hfind c hc
      rw [hpred c] at this
      exact this
    have hgoal : (scaleBody d0 rest cols).2.isErr = false := by
      cases cols with
      | nil => rfl
      | cons c0 cs =>
        simp only [scaleBody]
        split
        · rfl
        · split
          · rfl
          · split <;> rfl
    constructor
    · constructor
      · intro h
        rw [hgoal] at h
        cases h
      · rintro ⟨c, hc, hbad⟩
        exact absurd hbad (hno c hc)
    · intro h
      rw [hgoal] at h
      cases h

/-- Witness for C4: column 5 is out of range for two-column data, and the
error leaves the data untouched. -/
theorem Scale_error_iff_witness :
    tdTwo ≠ [] ∧ (∀ d ∈ tdTwo, d.Inputs.length = 2) ∧
      ((((Scale tdTwo [5]).2.isErr = true) ↔
          ∃ c ∈ ([5] : List Int), c < 0 ∨ (2 : Int) ≤ c) ∧
        ((Scale tdTwo [5]).2.isErr = true → (Scale tdTwo [5]).1 = tdTwo)) :=
  ⟨by decide, by decide, Scale_error_iff tdTwo [5] 2 (by decide) (by decide)⟩

/-- C1 (code bug): at a next layer with two units, the `calculateDeltas`
double loop pairs every downstream delta with every weight in the input's
column — at `layerTwoOut` with incoming deltas `[1, 0]` it computes
`(1+0)*(1+2) * 1/2 * 1/2 = 3/4` — while the specified backpropagation
formula, pairing each delta with the single weight connecting this input to
that unit, gives `(1*1 + 0*2) * 1/2 * 1/2 = 1/4`. -/
theorem calculateDeltas_deviates :
    calculateDeltas [1, 0] layerTwoOut = [3/4] ∧
    calculateDeltasSpec [1, 0] layerTwoOut = [1/4] ∧
    calculateDeltas [1, 0] layerTwoOut ≠ calculateDeltasSpec [1, 0] layerTwoOut := by
  have h1 : calculateDeltas [1, 0] layerTwoOut = [3/4] := by
    simp [calculateDeltas, layerTwoOut, List.range_succ]
    norm_num
  have h2 : calculateDeltasSpec [1, 0] layerTwoOut = [1/4] := by
    simp [calculateDeltasSpec, layerTwoOut, List.range_succ]
    norm_num
  refine ⟨h1, h2, ?_⟩
  rw [h1, h2]
  intro hcontra
  have : (3 : ℚ)/4 = 1/4 := by
    simpa using hcontra
  norm_num at this

/-- C10: the heap-level `UpdateWeights` allocates the sum as a fresh cell:
the returned reference is the previously-unused index `s.length`, the store
grows by exactly that one cell, every existing cell — in particular both
operands and any alias of the old weight matrix — is unchanged, and the
fresh cell holds the elementwise sum of the old weights and the update. -/
theorem UpdateWeightsAlloc_frame (s : Store) (wref uref : Nat)
    (hok : (Layer.UpdateWeightsAlloc s wref uref).2.2 = none) :
    (Layer.UpdateWeightsAlloc s wref uref).2.1 = some s.length ∧
    (Layer.UpdateWeightsAlloc s wref uref).1.length = s.length + 1 ∧
    (∀ k, k < s.length →
      (Layer.UpdateWeightsAlloc s wref uref).1.getD k [] = s.getD k []) ∧
    (Layer.UpdateWeightsAlloc s wref uref).1.getD s.length []
      = coreAddVal (s.getD wref []) (s.getD uref []) := by
  unfold Layer.UpdateWeightsAlloc Core.AddAlloc at hok ⊢
  cases hadd : (s.getD wref []).Add (s.getD uref []) with
  | error e => rw [hadd] at hok; cases hok
  | ok r =>
    have hr : r = coreAddVal (s.getD wref []) (s.getD uref []) := by
      unfold Core.Add at hadd
      by_cases hg : (s.getD wref []).InputSize ≠ (s.getD uref []).InputSize ∨
          (s.getD wref []).OutputSize ≠ (s.getD uref []).OutputSize
      · rw [if_pos hg] at hadd; cases hadd
      · rw [if_neg hg] at hadd
        exact (Except.ok.injEq _ _ ▸ hadd).symm
    subst hr
    refine ⟨rfl, by simp, fun k hk => ?_, ?_⟩
    · exact List.getD_append s _ [] k hk
    · have := List.getD_append_right s
        [coreAddVal (s.getD wref []) (s.getD uref [])] [] s.length le_rfl
      simpa using this

/-- Witness for C10 at a store of two 1×1 matrices. -/
theorem UpdateWeightsAlloc_frame_witness :
    ((Layer.UpdateWeightsAlloc [[[1]], [[2]]] 0 1).2.2 = none) ∧
      ((Layer.UpdateWeightsAlloc [[[1]], [[2]]] 0 1).2.1
          = some ([[[1]], [[2]]] : Store).length ∧
        (Layer.UpdateWeightsAlloc [[[1]], [[2]]] 0 1).1.length
          = ([[[1]], [[2]]] : Store).length + 1 ∧
        (∀ k, k < ([[[1]], [[2]]] : Store).length →
          (Layer.UpdateWeightsAlloc [[[1]], [[2]]] 0 1).1.getD k []
            = ([[[1]], [[2]]] : Store).getD k []) ∧
        (Layer.UpdateWeightsAlloc [[[1]], [[2]]] 0 1).1.getD
            ([[[1]], [[2]]] : Store).length []
          = coreAddVal (([[[1]], [[2]]] : Store).getD 0 [])
              (([[[1]], [[2]]] : Store).getD 1 [])) :=
  ⟨by decide, UpdateWeightsAlloc_frame [[[1]], [[2]]] 0 1 (by decide)⟩

/-! The training loop: callback and learning-rate behaviour. -/

theorem trainLoop_head (sig : α → α) (rngs : Nat → Nat → Nat)
    (handlers : List (IterationCallback α)) (fuel : Nat) (ts : TrainerState α)
    (net : Network α) (td : TrainingData α) (it : Nat) :
    (trainLoop sig rngs handlers (fuel + 1) ts net td it).2.2.1.head?
      = some (.iterBegin ts.Alpha (it + 1)) := by
  simp only [trainLoop]
  rcases h1 : Trainer.OneIteration sig ts (rngs (it + 1)) net td with ⟨net1, res⟩
  cases res with
  | error e => simp
  | ok m =>
    simp only
    split
    · simp
    · rcases h2 : trainLoop sig rngs handlers fuel
        (runIterHandlers handlers ts (some m) (it + 1) none 0).1 net1 td (it + 1)
        with ⟨ts2, net2, evs2, r⟩
      simp

theorem runIterHandlers_events (hs : List (IterationCallback α)) :
    ∀ (ts : TrainerState α) (mse : Option (List α)) (it : Nat) (err : Option Err) (idx : Nat),
      (runIterHandlers hs ts mse it err idx).2
        = (List.range hs.length).map (fun i => .iterEnd (idx + i) it err) := by
  induction hs with
  | nil => intro ts mse it err idx; rfl
  | cons h hs ih =>
    intro ts mse it err idx
    simp only [runIterHandlers]
    rcases hrec : runIterHandlers hs (h ts mse it err) mse it err (idx + 1) with ⟨ts1, evs⟩
    have hv := ih (h ts mse it err) mse it err (idx + 1)
    rw [hrec] at hv
    simp only at hv
    simp only [hv, List.length_cons, List.range_succ_eq_map, List.map_cons, List.map_map]
    refine congrArg₂ List.cons (by simp) (List.map_congr_left ?_)
    intro i _
    simp only [Function.comp]
    congr 1
    omega

theorem runStartHandlers_no_trainEnd (hs : List (TrainingCallback α)) :
    ∀ (ts : TrainerState α) (idx i : Nat),
      TrainEvent.trainEnd i ∉ (runStartHandlers hs ts idx).2 := by
  induction hs with
  | nil => intro ts idx i h; cases h
  | cons h hs ih =>
    intro ts idx i hmem
    simp only [runStartHandlers] at hmem
    rcases hrec : runStartHandlers hs (h ts) (idx + 1) with ⟨ts1, evs⟩
    rw [hrec] at hmem
    simp only [List.mem_cons] at hmem
    rcases hmem with hmem | hmem
    · cases hmem
    · have := ih (h ts) (idx + 1) i
      rw [hrec] at this
      exact this hmem

theorem runIterHandlers_no_trainEnd (hs : List (IterationCallback α))
    (ts : TrainerState α) (mse : Option (List α)) (it : Nat) (err : Option Err)
    (idx i : Nat) :
    TrainEvent.trainEnd i ∉ (runIterHandlers hs ts mse it err idx).2 := by
  rw [runIterHandlers_events]
  intro hmem
  simp only [List.mem_map] at hmem
  obtain ⟨j, _, hj⟩ := hmem
  cases hj

theorem trainLoop_no_trainEnd (sig : α → α) (rngs : Nat → Nat → Nat)
    (handlers : List (IterationCallback α)) :
    ∀ (fuel : Nat) (ts : TrainerState α) (net : Network α) (td : TrainingData α)
      (it i : Nat),
      TrainEvent.trainEnd i ∉ (trainLoop sig rngs handlers fuel ts net td it).2.2.1 := by
  intro fuel
  induction fuel with
  | zero => intro ts net td it i h; cases h
  | succ fuel ih =>
    intro ts net td it i hmem
    simp only [trainLoop] at hmem
    rcases h1 : Trainer.OneIteration sig ts (rngs (it + 1)) net td with ⟨net1, res⟩
    rw [h1] at hmem
    cases res with
    | error e =>
      simp only [List.mem_cons] at hmem
      rcases hmem with hmem | hmem
      · cases hmem
      · exact runIterHandlers_no_trainEnd handlers ts none (it + 1) (some e) 0 i hmem
    | ok m =>
      simp only at hmem
      by_cases ht : (runIterHandlers handlers ts (some m) (it + 1) none 0).1.requestTerminate
      · rw [if_pos ht] at hmem
        simp only [List.mem_cons] at hmem
        rcases hmem with hmem | hmem
        · cases hmem
        · exact runIterHandlers_no_trainEnd handlers ts (some m) (it + 1) none 0 i hmem
      · rw [if_neg ht] at hmem
        rcases h2 : trainLoop sig rngs handlers fuel
            (runIterHandlers handlers ts (some m) (it + 1) none 0).1 net1 td (it + 1)
            with ⟨ts2, net2, evs2, r⟩
        rw [h2] at hmem
        simp only [List.cons_append, List.mem_cons, List.mem_append] at hmem
        rcases hmem with hmem | hmem | hmem
        · cases hmem
        · exact runIterHandlers_no_trainEnd handlers ts (some m) (it + 1) none 0 i hmem
        · have := ih (runIterHandlers handlers ts (some m) (it + 1) none 0).1 net1 td (it + 1) i
          rw [h2] at this
          exact this hmem

/-- C7: at the start of `Train` a zero learning rate is replaced by 0.1 and a
nonzero one is kept, before the first iteration runs: with no start-training
handlers registered (they could overwrite the rate), the first event of any
run with fuel is the first iteration starting under exactly that rate. -/
theorem Train_alpha_default (sig : α → α) (rngs : Nat → Nat → Nat) (t : Trainer α)
    (net : Network α) (td : TrainingData α) (fuel : Nat)
    (hstart : t.startTrainingHandlers = []) (hfuel : fuel ≠ 0) :
    (Trainer.Train sig rngs fuel t net td).2.2.1.head?
      = some (.iterBegin (if t.toState.Alpha = 0 then 1 / 10 else t.toState.Alpha) 1) := by
  obtain ⟨f, rfl⟩ : ∃ f, fuel = f + 1 := ⟨fuel - 1, by omega⟩
  have hAlpha : (if t.toState.Alpha = 0 then { t.toState with Alpha := 1 / 10 }
      else t.toState).Alpha = if t.toState.Alpha = 0 then 1 / 10 else t.toState.Alpha := by
    split <;> rfl
  simp only [Trainer.Train, hstart, runStartHandlers]
  have hhead := trainLoop_head sig rngs t.endOfIterationHandlers f
    (if t.toState.Alpha = 0 then { t.toState with Alpha := 1 / 10 } else t.toState) net td 0
  rw [hAlpha] at hhead
  rcases h2 : trainLoop sig rngs t.endOfIterationHandlers (f + 1)
      (if t.toState.Alpha = 0 then { t.toState with Alpha := 1 / 10 } else t.toState)
      net td 0 with ⟨ts2, net2, evs1, r⟩
  rw [h2] at hhead
  simp only at hhead
  obtain ⟨ev, tl, rfl⟩ : ∃ ev tl, evs1 = ev :: tl := by
    cases evs1 with
    | nil => cases hhead
    | cons a b => exact ⟨a, b, rfl⟩
  simp only [Option.some.injEq, List.head?] at hhead
  rcases r with _ | r
  · simpa using hhead
  · rcases r with _ | e
    · rcases h3 : runEndHandlers t.endTrainingHandlers ts2 0 with ⟨ts3, evs2⟩
      simpa using hhead
    · simpa using hhead

/-- Witness for C7: a zero-rate trainer's first iteration runs at rate 1/10. -/
theorem Train_alpha_default_witness :
    cTrainer.startTrainingHandlers = [] ∧ (1 : Nat) ≠ 0 ∧
      (Trainer.Train idSig zeroRngs 1 cTrainer cNet [⟨[1], [0]⟩]).2.2.1.head?
        = some (.iterBegin (if cTrainer.toState.Alpha = 0 then 1 / 10
            else cTrainer.toState.Alpha) 1) :=
  ⟨rfl, by decide,
    Train_alpha_default idSig zeroRngs cTrainer cNet [⟨[1], [0]⟩] 1 rfl (by decide)⟩

/-- C2 (amended): when `OneIteration` fails at any iteration of the training
loop, every registered iteration-end callback is still invoked for that
iteration — one `iterEnd` event per handler position, carrying the error —
and the error is returned as the overall training result; but the
end-of-training handlers are NOT invoked: no `trainEnd` event occurs in a
run of `Train` that returns an error. -/
theorem Train_error_behavior (sig : α → α) (rngs : Nat → Nat → Nat)
    (handlers : List (IterationCallback α)) (net : Network α) (td : TrainingData α) :
    (∀ (fuel it : Nat) (ts : TrainerState α) (e : Err),
      (Trainer.OneIteration sig ts (rngs (it + 1)) net td).2 = .error e →
      (trainLoop sig rngs handlers (fuel + 1) ts net td it).2.2.2 = some (some e) ∧
      (trainLoop sig rngs handlers (fuel + 1) ts net td it).2.2.1
        = .iterBegin ts.Alpha (it + 1)
            :: (List.range handlers.length).map (fun i => .iterEnd i (it + 1) (some e))) ∧
    (∀ (t : Trainer α) (fuel : Nat) (e : Err) (i : Nat),
      (Trainer.Train sig rngs fuel t net td).2.2.2 = some (some e) →
      TrainEvent.trainEnd i ∉ (Trainer.Train sig rngs fuel t net td).2.2.1) := by
  constructor
  · intro fuel it ts e herr
    simp only [trainLoop]
    rcases h1 : Trainer.OneIteration sig ts (rngs (it + 1)) net td with ⟨net1, res⟩
    rw [h1] at herr
    simp only at herr
    subst herr
    have hev := runIterHandlers_events handlers ts none (it + 1) (some e) 0
    simp only [Nat.zero_add] at hev
    exact ⟨rfl, by simp [hev]⟩
  · intro t fuel e i herr hmem
    simp only [Trainer.Train] at herr hmem
    rcases h1 : runStartHandlers t.startTrainingHandlers
        (if t.toState.Alpha = 0 then { t.toState with Alpha := 1 / 10 } else t.toState) 0
        with ⟨ts1, evs0⟩
    rw [h1] at herr hmem
    rcases h2 : trainLoop sig rngs t.endOfIterationHandlers fuel ts1 net td 0
        with ⟨ts2, net2, evs1, r⟩
    rw [h2] at herr hmem
    rcases r with _ | r
    · simp at herr
    · rcases r with _ | e2
      · simp at herr
      · simp only [List.mem_append] at hmem
        rcases hmem with hmem | hmem
        · have := runStartHandlers_no_trainEnd t.startTrainingHandlers
            (if t.toState.Alpha = 0 then { t.toState with Alpha := 1 / 10 } else t.toState) 0 i
          rw [h1] at this
          exact this hmem
        · have := trainLoop_no_trainEnd sig rngs t.endOfIterationHandlers fuel ts1 net td 0 i
          rw [h2] at this
          exact this hmem

/-- Witness for C2's amended theorem at a concrete failing run. -/
theorem Train_error_behavior_witness :
    ((Trainer.OneIteration idSig cTrainer.toState (zeroRngs (0 + 1)) cNet [cBadDatum]).2
        = .error (.coreProcess 2 1)) ∧
      ((trainLoop idSig zeroRngs cTrainer.endOfIterationHandlers (0 + 1) cTrainer.toState
          cNet [cBadDatum] 0).2.2.2 = some (some (.coreProcess 2 1)) ∧
        (trainLoop idSig zeroRngs cTrainer.endOfIterationHandlers (0 + 1) cTrainer.toState
          cNet [cBadDatum] 0).2.2.1
          = .iterBegin cTrainer.toState.Alpha (0 + 1)
              :: (List.range cTrainer.endOfIterationHandlers.length).map
                  (fun i => .iterEnd i (0 + 1) (some (.coreProcess 2 1)))) :=
  ⟨rfl, (Train_error_behavior idSig zeroRngs cTrainer.endOfIterationHandlers cNet
    [cBadDatum]).1 0 0 cTrainer.toState (.coreProcess 2 1) rfl⟩

/-- Counterexample to C2 as frozen: in a failing run against a trainer that
HAS an end-of-training handler registered (it would set `ShuffleRounds` to
42), the error is returned and the iteration-end callback runs, but no
`trainEnd` event is emitted and the handler's effect is absent from the
final state — the end-of-training callbacks are skipped. -/
theorem Train_error_skips_end_handlers :
    (Trainer.Train idSig zeroRngs 5 cTrainer cNet [cBadDatum]).2.2.2
        = some (some (.coreProcess 2 1)) ∧
      (Trainer.Train idSig zeroRngs 5 cTrainer cNet [cBadDatum]).2.2.1
        = [.iterBegin (1 / 10) 1, .iterEnd 0 1 (some (.coreProcess 2 1))] ∧
      (Trainer.Train idSig zeroRngs 5 cTrainer cNet [cBadDatum]).1.ShuffleRounds = 0 :=
  ⟨rfl, rfl, rfl⟩

/-! Shape and zero-value lemmas for the update machinery. -/

/-- An accumulator matches a weight matrix when it is an all-zero matrix of
exactly the same shape (row count, first-row length, and every row's length
equal to the weight matrix's column count). -/
def ZeroLike (u w : Core α) : Prop :=
  u.length = w.length ∧ Core.InputSize u = Core.InputSize w ∧
    ∀ row ∈ u, row.length = Core.InputSize w ∧ ∀ x ∈ row, x = 0

theorem calculateUpdate_length (l : Layer α) (ds : List α) (a : α) :
    (calculateUpdate l ds a).length = l.Weights.length := by
  simp [calculateUpdate]

theorem calculateUpdate_inputSize (l : Layer α) (ds : List α) (a : α) :
    Core.InputSize (calculateUpdate l ds a) = Core.InputSize l.Weights := by
  cases hw : l.Weights with
  | nil => simp [calculateUpdate, hw, Core.InputSize]
  | cons w ws =>
    simp [calculateUpdate, hw, Core.InputSize, List.range_succ_eq_map]

theorem calculateUpdate_zero_entries (l : Layer α) (ds : List α) :
    ∀ row ∈ calculateUpdate l ds (0 : α), ∀ x ∈ row, x = 0 := by
  intro row hrow x hx
  simp only [calculateUpdate, List.mem_map] at hrow
  obtain ⟨i, _, rfl⟩ := hrow
  simp only [List.mem_map] at hx
  obtain ⟨j, _, rfl⟩ := hx
  simp

theorem calculateUpdate_zeroLike (l : Layer α) (ds : List α)
    (hrect : coreRect l.Weights = true) :
    ZeroLike (calculateUpdate l ds (0 : α)) l.Weights := by
  refine ⟨calculateUpdate_length l ds 0, calculateUpdate_inputSize l ds 0, ?_⟩
  intro row hrow
  refine ⟨?_, fun x hx => calculateUpdate_zero_entries l ds row hrow x hx⟩
  simp only [calculateUpdate, List.mem_map] at hrow
  obtain ⟨i, hi, rfl⟩ := hrow
  simp only [List.mem_range] at hi
  simp only [List.length_map, List.length_range]
  have hmem : l.Weights.getD i [] ∈ l.Weights := by
    rw [List.getD_eq_getElem _ _ hi]
    exact List.getElem_mem _
  have := List.all_eq_true.mp hrect _ hmem
  simpa using this

theorem zipWith_add_zero_right (r z : List α) (hlen : z.length = r.length)
    (hz : ∀ x ∈ z, x = 0) :
    List.zipWith (fun a b => a + b) r z = r := by
  induction r generalizing z with
  | nil => simp
  | cons a rs ih =>
    cases z with
    | nil => simp at hlen
    | cons b zs =>
      simp only [List.zipWith_cons_cons]
      have hb : b = 0 := hz b (by simp)
      rw [hb, add_zero, ih zs (by simpa using hlen) (fun x hx => hz x (by simp [hx]))]

theorem rowsLen_of_rect (w : Core α) (hrect : coreRect w = true) :
    ∀ row ∈ w, row.length = Core.InputSize w := by
  intro row hrow
  have := List.all_eq_true.mp hrect row hrow
  simpa using this

theorem coreAddVal_zero_rows (n : Nat) :
    ∀ (w u : Core α), (∀ row ∈ w, row.length = n) →
      (∀ row ∈ u, row.length = n ∧ ∀ x ∈ row, x = 0) →
      u.length = w.length → coreAddVal w u = w := by
  intro w
  induction w with
  | nil =>
    intro u _ _ hlen
    cases u with
    | nil => rfl
    | cons a b => simp at hlen
  | cons wr wrs ih =>
    intro u hw hu hlen
    cases u with
    | nil => simp at hlen
    | cons ur urs =>
      simp only [coreAddVal, List.zipWith_cons_cons] at ih ⊢
      have h1 : List.zipWith (fun a b => a + b) wr ur = wr :=
        zipWith_add_zero_right wr ur
          (by rw [(hu ur (by simp)).1, hw wr (by simp)])
          (hu ur (by simp)).2
      have h2 := ih urs (fun row hr => hw row (by simp [hr]))
        (fun row hr => hu row (by simp [hr])) (by simpa using hlen)
      rw [h1]
      exact congrArg _ h2

theorem coreAddVal_zero_right (w u : Core α) (hrect : coreRect w = true)
    (hz : ZeroLike u w) : coreAddVal w u = w :=
  coreAddVal_zero_rows (Core.InputSize w) w u (rowsLen_of_rect w hrect) hz.2.2 hz.1

theorem mem_zipWith_pair {β γ δ : Type} (f : β → γ → δ) :
    ∀ (l1 : List β) (l2 : List γ) (x : δ), x ∈ List.zipWith f l1 l2 →
      ∃ a b, a ∈ l1 ∧ b ∈ l2 ∧ x = f a b := by
  intro l1
  induction l1 with
  | nil => intro l2 x h; simp at h
  | cons a l1 ih =>
    intro l2 x h
    cases l2 with
    | nil => simp at h
    | cons b l2 =>
      simp only [List.zipWith_cons_cons, List.mem_cons] at h
      rcases h with rfl | h
      · exact ⟨a, b, by simp, by simp, rfl⟩
      · obtain ⟨a1, b1, ha, hb, rfl⟩ := ih l2 x h
        exact ⟨a1, b1, by simp [ha], by simp [hb], rfl⟩

theorem coreAdd_ok (u v : Core α) (hi : Core.InputSize u = Core.InputSize v)
    (hl : u.length = v.length) : Core.Add u v = .ok (coreAddVal u v) := by
  unfold Core.Add
  rw [if_neg]
  push_neg
  exact ⟨hi, hl⟩

theorem coreAddVal_zeroLike (u v w : Core α) (hu : ZeroLike u w) (hv : ZeroLike v w) :
    ZeroLike (coreAddVal u v) w := by
  obtain ⟨hul, hui, hur⟩ := hu
  obtain ⟨hvl, hvi, hvr⟩ := hv
  refine ⟨by simp [coreAddVal]; omega, ?_, ?_⟩
  · cases u with
    | nil =>
      have hw : w.length = 0 := by simpa using hul.symm
      cases w with
      | nil => simp [coreAddVal, Core.InputSize]
      | cons _ _ => simp at hw
    | cons ur urs =>
      cases v with
      | nil =>
        exfalso
        simp only [List.length_nil] at hvl
        simp only [List.length_cons] at hul
        omega
      | cons vr vrs =>
        have h1 := (hur ur (by simp)).1
        have h2 := (hvr vr (by simp)).1
        show (List.zipWith (fun a b => a + b) ur vr).length = Core.InputSize w
        rw [List.length_zipWith, h1, h2, Nat.min_self]
  · intro row hrow
    obtain ⟨a, b, ha, hb, rfl⟩ := mem_zipWith_pair _ u v row hrow
    have h1 := hur a ha
    have h2 := hvr b hb
    constructor
    · simp only [List.length_zipWith]
      omega
    · intro x hx
      obtain ⟨xa, xb, hxa, hxb, rfl⟩ := mem_zipWith_pair _ a b x hx
      rw [h1.2 xa hxa, h2.2 xb hxb, add_zero]

theorem updateLayersLoop_zero (batch : Bool) :
    ∀ (ls : List (Layer α)) (ds : List (List α)) (us : List (Core α)),
      (∀ l ∈ ls, coreRect l.Weights = true) →
      List.Forall₂ (fun u w => ZeroLike u w) us (ls.map (fun l => l.Weights)) →
      (updateLayersLoop batch (0 : α) ls ds us).1 = ls ∧
      (updateLayersLoop batch (0 : α) ls ds us).2.2 = none ∧
      List.Forall₂ (fun u w => ZeroLike u w)
        (updateLayersLoop batch (0 : α) ls ds us).2.1
        (ls.map (fun l => l.Weights)) := by
  intro ls
  induction ls with
  | nil =>
    intro ds us _ hf
    exact ⟨rfl, rfl, by simpa using hf⟩
  | cons l ls ih =>
    intro ds us hrect hf
    rw [List.map_cons] at hf
    cases hf with
    | cons hzu hf2 =>
      rename_i u us2
      have hlrect := hrect l (by simp)
      have hupd := calculateUpdate_zeroLike l (ds.headD []) hlrect
      simp only [updateLayersLoop]
      obtain ⟨ih1, ih2, ih3⟩ := ih ds.tail us2
        (fun l2 h2 => hrect l2 (by simp [h2])) hf2
      rcases hrec : updateLayersLoop batch (0 : α) ls ds.tail us2 with ⟨ls2, us3, e⟩
      rw [hrec] at ih1 ih2 ih3
      simp only at ih1 ih2 ih3
      cases batch with
      | false =>
        rw [if_neg (by simp)]
        have hadd : l.Weights.Add (calculateUpdate l (ds.headD []) 0)
            = .ok l.Weights := by
          rw [coreAdd_ok _ _ (calculateUpdate_inputSize l (ds.headD []) 0).symm
            (calculateUpdate_length l (ds.headD []) 0).symm]
          rw [coreAddVal_zero_right l.Weights _ hlrect hupd]
        have hupdw : (l.UpdateWeights (calculateUpdate l (ds.headD []) 0)).1 = l := by
          simp only [Layer.UpdateWeights, hadd]
        simp only [List.tail_cons, hrec, hupdw]
        refine ⟨by rw [ih1], ih2, ?_⟩
        rw [List.map_cons]
        exact List.Forall₂.cons hzu hf2
      | true =>
        rw [if_pos rfl]
        have hui : Core.InputSize u = Core.InputSize (calculateUpdate l (ds.headD []) 0) := by
          rw [calculateUpdate_inputSize]
          exact hzu.2.1
        have hul : u.length = (calculateUpdate l (ds.headD []) 0).length := by
          rw [calculateUpdate_length]
          exact hzu.1
        have hadd := coreAdd_ok u (calculateUpdate l (ds.headD []) 0) hui hul
        have hhead : (u :: us2).headD [] = u := rfl
        rw [hhead, hadd]
        simp only [List.tail_cons, hrec]
        refine ⟨by rw [ih1], ih2, ?_⟩
        rw [List.map_cons]
        exact List.Forall₂.cons (coreAddVal_zeroLike u _ l.Weights hzu hupd) ih3

theorem applyBatchUpdates_zero :
    ∀ (ls : List (Layer α)) (us : List (Core α)),
      (∀ l ∈ ls, coreRect l.Weights = true) →
      List.Forall₂ (fun u w => ZeroLike u w) us (ls.map (fun l => l.Weights)) →
      applyBatchUpdates ls us = ls := by
  intro ls
  induction ls with
  | nil => intro us _ _; rfl
  | cons l ls ih =>
    intro us hrect hf
    rw [List.map_cons] at hf
    cases hf with
    | cons hzu hf2 =>
      rename_i u us2
      simp only [applyBatchUpdates]
      have hadd : l.Weights.Add ((u :: us2).headD []) = .ok l.Weights := by
        show l.Weights.Add u = _
        rw [coreAdd_ok _ _ hzu.2.1.symm hzu.1.symm,
          coreAddVal_zero_right l.Weights u (hrect l (by simp)) hzu]
      have h1 : (l.UpdateWeights ((u :: us2).headD [])).1 = l := by
        simp only [Layer.UpdateWeights, hadd]
      rw [h1, List.tail_cons, ih us2 (fun l2 h2 => hrect l2 (by simp [h2])) hf2]

/-! Shuffle permutes within the data set. -/

theorem swapAt_length (td : TrainingData α) (i j : Nat) :
    (swapAt td i j).length = td.length := by
  simp [swapAt]

theorem swapAt_mem (td : TrainingData α) (i j : Nat) (hi : i < td.length)
    (hj : j < td.length) : ∀ x ∈ swapAt td i j, x ∈ td := by
  intro x hx
  simp only [swapAt] at hx
  rcases List.mem_or_eq_of_mem_set hx with hx | rfl
  · rcases List.mem_or_eq_of_mem_set hx with hx | rfl
    · exact hx
    · rw [List.getD_eq_getElem _ _ hj]
      exact List.getElem_mem hj
  · rw [List.getD_eq_getElem _ _ hi]
    exact List.getElem_mem hi

theorem shuffleSwaps_length (rng : Nat → Nat) :
    ∀ (n k : Nat) (td : TrainingData α), (shuffleSwaps rng k n td).length = td.length := by
  intro n
  induction n with
  | zero => intro k td; rfl
  | succ n ihn =>
    intro k td
    simp only [shuffleSwaps]
    rw [ihn, swapAt_length]

theorem shuffleSwaps_mem (rng : Nat → Nat) :
    ∀ (n k : Nat) (td : TrainingData α), td ≠ [] →
      ∀ x ∈ shuffleSwaps rng k n td, x ∈ td := by
  intro n
  induction n with
  | zero => intro k td _ x hx; exact hx
  | succ n ihn =>
    intro k td hne x hx
    simp only [shuffleSwaps] at hx
    have hpos : 0 < td.length := List.length_pos.mpr hne
    have hswne : swapAt td (rng k % td.length) (rng (k + 1) % td.length) ≠ [] := by
      rw [← List.length_pos, swapAt_length]
      exact hpos
    have h1 := ihn (k + 2) _ hswne x hx
    exact swapAt_mem td _ _ (Nat.mod_lt _ hpos) (Nat.mod_lt _ hpos) x h1

theorem shuffleRoundsLoop_mem (rng : Nat → Nat) :
    ∀ (r k : Nat) (td : TrainingData α), td ≠ [] →
      ∀ x ∈ shuffleRoundsLoop rng k r td, x ∈ td := by
  intro r
  induction r with
  | zero => intro k td _ x hx; exact hx
  | succ r ihr =>
    intro k td hne x hx
    simp only [shuffleRoundsLoop] at hx
    have hpos : 0 < td.length := List.length_pos.mpr hne
    have hswne : shuffleSwaps rng k td.length td ≠ [] := by
      rw [← List.length_pos, shuffleSwaps_length]
      exact hpos
    have h1 := ihr _ _ hswne x hx
    exact shuffleSwaps_mem rng td.length k td hne x h1

theorem shuffledData_mem (t : TrainerState α) (rng : Nat → Nat)
    (data : TrainingData α) (hne : data ≠ []) :
    ∀ x ∈ shuffledData t rng data, x ∈ data := by
  intro x hx
  unfold shuffledData at hx
  split at hx
  · exact shuffleRoundsLoop_mem rng t.ShuffleRounds 0 data hne x hx
  · exact hx

/-! The zero-learning-rate iteration leaves the weights unchanged. -/

theorem rect_of_map_eq (ls1 ls2 : List (Layer α))
    (h : ls1.map (fun l => l.Weights) = ls2.map (fun l => l.Weights))
    (h2 : ∀ l ∈ ls2, coreRect l.Weights = true) :
    ∀ l ∈ ls1, coreRect l.Weights = true := by
  intro l hl
  have hmem : l.Weights ∈ ls2.map (fun l => l.Weights) :=
    h ▸ List.mem_map_of_mem _ hl
  obtain ⟨l2, hl2, he⟩ := List.mem_map.mp hmem
  rw [← he]
  exact h2 l2 hl2

theorem makeCore_zeroLike (w : Core α) :
    ZeroLike (MakeCore (Core.InputSize w) (Core.OutputSize w)) w := by
  refine ⟨by simp [MakeCore, Core.OutputSize], ?_, ?_⟩
  · unfold MakeCore Core.InputSize Core.OutputSize
    cases w with
    | nil => simp
    | cons r rs => simp [List.replicate_succ]
  · intro row hrow
    unfold MakeCore at hrow
    rw [List.eq_of_mem_replicate hrow]
    exact ⟨by simp, by simp⟩

theorem initUpdates_zeroLike (net : Network α) :
    List.Forall₂ (fun u w => ZeroLike u w) (initUpdates net)
      (net.Layers.map (fun l => l.Weights)) := by
  unfold initUpdates
  induction net.Layers with
  | nil => exact List.Forall₂.nil
  | cons l ls ih =>
    simp only [List.map_cons]
    exact List.Forall₂.cons (makeCore_zeroLike l.Weights) ih

theorem oneIterLoop_zero (sig : α → α) (batch : Bool) :
    ∀ (data : TrainingData α) (net : Network α) (us : List (Core α)) (total : List α),
      (∀ l ∈ net.Layers, coreRect l.Weights = true) →
      List.Forall₂ (fun u w => ZeroLike u w) us (net.Layers.map (fun l => l.Weights)) →
      (oneIterLoop sig (0 : α) batch net us total data).1.Layers.map (fun l => l.Weights)
        = net.Layers.map (fun l => l.Weights) ∧
      ((oneIterLoop sig (0 : α) batch net us total data).2.2.2 = none →
        List.Forall₂ (fun u w => ZeroLike u w)
          (oneIterLoop sig (0 : α) batch net us total data).2.1
          (net.Layers.map (fun l => l.Weights))) := by
  intro data
  induction data with
  | nil => intro net us total _ hf; exact ⟨rfl, fun _ => hf⟩
  | cons d rest ih =>
    intro net us total hrect hf
    simp only [oneIterLoop]
    rcases hp : Network.Process sig net d.Inputs with ⟨net1, res⟩
    have hw1 : net1.Layers.map (fun l => l.Weights)
        = net.Layers.map (fun l => l.Weights) := by
      have hly := network_process_layers sig net d.Inputs
      rw [hp] at hly
      simp only at hly
      rw [hly]
      exact processLayers_weights sig net.Layers d.Inputs
    cases res with
    | error e =>
      refine ⟨hw1, fun hc => ?_⟩
      cases hc
    | ok outputs =>
      simp only []
      by_cases hlen : d.Expected.length ≠ outputs.length
      · rw [if_pos hlen]
        refine ⟨hw1, fun hc => ?_⟩
        cases hc
      · rw [if_neg hlen]
        have hrect1 : ∀ l ∈ net1.Layers, coreRect l.Weights = true :=
          rect_of_map_eq _ _ hw1 hrect
        have hf1 : List.Forall₂ (fun u w => ZeroLike u w) us
            (net1.Layers.map (fun l => l.Weights)) := hw1.symm ▸ hf
        obtain ⟨hu1, hu2, hu3⟩ := updateLayersLoop_zero batch net1.Layers
          (backwardDeltas net1.Layers (outputDeltas outputs d.Expected)) us hrect1 hf1
        rcases hul : updateLayersLoop batch (0 : α) net1.Layers
            (backwardDeltas net1.Layers (outputDeltas outputs d.Expected)) us
            with ⟨ls2, us2, e⟩
        rw [hul] at hu1 hu2 hu3
        simp only at hu1 hu2 hu3
        subst hu1
        subst hu2
        obtain ⟨r1, r2⟩ := ih { net1 with Layers := net1.Layers } us2
          (SquaredError.Accumulate total
            (List.zipWith (fun e a => (e - a) * (e - a)) d.Expected outputs))
          hrect1 hu3
        refine ⟨?_, fun hc => ?_⟩
        · exact r1.trans hw1
        · exact hw1 ▸ r2 hc

/-- C9: with a zero learning rate `OneIteration` computes all-zero update
matrices (every entry of every `calculateUpdate` at alpha 0 is zero), so for
a network of rectangular weight matrices every weight is numerically
unchanged by the iteration, in batch mode and online mode alike —
`OneIteration` does not apply the 0.1 default, which lives in `Train`. -/
theorem OneIteration_zero_alpha (sig : α → α) (rng : Nat → Nat) (ts : TrainerState α)
    (net : Network α) (data : TrainingData α) (ha : ts.Alpha = 0)
    (hrect : ∀ l ∈ net.Layers, coreRect l.Weights = true) (hne : data ≠ []) :
    (∀ (layer : Layer α) (ds : List α),
        ∀ row ∈ calculateUpdate layer ds (0 : α), ∀ x ∈ row, x = 0) ∧
    (Trainer.OneIteration sig ts rng net data).1.Layers.map (fun l => l.Weights)
      = net.Layers.map (fun l => l.Weights) := by
  refine ⟨fun layer ds => calculateUpdate_zero_entries layer ds, ?_⟩
  have hinit := initUpdates_zeroLike net
  simp only [Trainer.OneIteration, ha]
  obtain ⟨r1, r2⟩ := oneIterLoop_zero sig ts.BatchUpdate (shuffledData ts rng data) net
    (initUpdates net) (List.replicate (Network.OutputSize net) 0) hrect hinit
  rcases hloop : oneIterLoop sig (0 : α) ts.BatchUpdate net (initUpdates net)
      (List.replicate (Network.OutputSize net) 0) (shuffledData ts rng data)
      with ⟨net1, us1, total1, e⟩
  rw [hloop] at r1 r2
  simp only at r1 r2
  cases e with
  | some e2 => simpa using r1
  | none =>
    have hf1 := r2 rfl
    simp only []
    by_cases hb : ts.BatchUpdate = true
    · rw [if_pos hb]
      have hrect1 : ∀ l ∈ net1.Layers, coreRect l.Weights = true :=
        rect_of_map_eq _ _ r1 hrect
      have happ := applyBatchUpdates_zero net1.Layers us1 hrect1 (r1.symm ▸ hf1)
      simpa [happ] using r1
    · rw [if_neg hb]
      simpa using r1

/-- Witness for C9: a zero-rate online iteration on `cNet` leaves `[[2, 3]]`
unchanged. -/
theorem OneIteration_zero_alpha_witness :
    (({ requestTerminate := false, Alpha := 0, BatchUpdate := false,
        ShuffleRounds := 0 } : TrainerState ℚ).Alpha = 0) ∧
      (∀ l ∈ cNet.Layers, coreRect l.Weights = true) ∧
      (([⟨[1], [0]⟩] : TrainingData ℚ) ≠ []) ∧
      (Trainer.OneIteration idSig
          { requestTerminate := false, Alpha := 0, BatchUpdate := false,
            ShuffleRounds := 0 } zeroRng cNet [⟨[1], [0]⟩]).1.Layers.map
          (fun l => l.Weights)
        = cNet.Layers.map (fun l => l.Weights) :=
  ⟨rfl, by decide, by decide,
    (OneIteration_zero_alpha idSig zeroRng
      { requestTerminate := false, Alpha := 0, BatchUpdate := false, ShuffleRounds := 0 }
      cNet [⟨[1], [0]⟩] rfl (by decide) (by decide)).2⟩

/-! Batch-mode accumulation: dimension bookkeeping and forward-pass success. -/

/-- An accumulator has the row count and first-row length of a weight matrix
(the two quantities Go `Core.Add` validates). -/
def DimsLike (u w : Core α) : Prop :=
  u.length = w.length ∧ Core.InputSize u = Core.InputSize w

theorem coreAddVal_dims (u v : Core α) (h1 : u.length = v.length)
    (h2 : Core.InputSize u = Core.InputSize v) :
    (coreAddVal u v).length = u.length ∧
      Core.InputSize (coreAddVal u v) = Core.InputSize u := by
  constructor
  · simp only [coreAddVal, List.length_zipWith]
    omega
  · cases u with
    | nil =>
      cases v with
      | nil => rfl
      | cons _ _ => simp at h1
    | cons ur urs =>
      cases v with
      | nil => simp at h1
      | cons vr vrs =>
        show (List.zipWith (fun a b => a + b) ur vr).length = ur.length
        rw [List.length_zipWith]
        have h3 : ur.length = vr.length := h2
        omega

theorem dims_zipWith_add :
    ∀ (ws us ps : List (Core α)),
      List.Forall₂ (fun u w => DimsLike u w) us ws →
      List.Forall₂ (fun u w => DimsLike u w) ps ws →
      List.Forall₂ (fun u w => DimsLike u w) (List.zipWith coreAddVal us ps) ws := by
  intro ws
  induction ws with
  | nil =>
    intro us ps h1 h2
    cases h1
    cases h2
    exact List.Forall₂.nil
  | cons w ws ih =>
    intro us ps h1 h2
    cases h1 with
    | cons hu h1t =>
      cases h2 with
      | cons hp h2t =>
        rename_i u us2 p ps2
        simp only [List.zipWith_cons_cons]
        have hd := coreAddVal_dims u p (hu.1.trans hp.1.symm) (hu.2.trans hp.2.symm)
        exact List.Forall₂.cons ⟨hd.1.trans hu.1, hd.2.trans hu.2⟩ (ih us2 ps2 h1t h2t)

theorem calcUpdates_dims (alpha : α) :
    ∀ (ls : List (Layer α)) (ds : List (List α)), ds.length = ls.length →
      List.Forall₂ (fun u w => DimsLike u w)
        (List.zipWith (fun l dl => calculateUpdate l dl alpha) ls ds)
        (ls.map (fun l => l.Weights)) := by
  intro ls
  induction ls with
  | nil => intro ds _; exact List.Forall₂.nil
  | cons l ls ih =>
    intro ds hlen
    cases ds with
    | nil => simp at hlen
    | cons d0 ds2 =>
      simp only [List.zipWith_cons_cons, List.map_cons]
      exact List.Forall₂.cons
        ⟨calculateUpdate_length l d0 alpha, calculateUpdate_inputSize l d0 alpha⟩
        (ih ds2 (by simpa using hlen))

theorem initUpdates_dims (net : Network α) :
    List.Forall₂ (fun u w => DimsLike u w) (initUpdates net)
      (net.Layers.map (fun l => l.Weights)) :=
  List.Forall₂.imp (fun u w h => And.intro h.1 h.2.1) (initUpdates_zeroLike net)

theorem backwardDeltas_length :
    ∀ (ls : List (Layer α)) (dLast : List α),
      (backwardDeltas ls dLast).length = ls.length := by
  intro ls
  induction ls with
  | nil => intro d; rfl
  | cons l ls ih =>
    intro d
    cases ls with
    | nil => rfl
    | cons l2 ls2 => simp [backwardDeltas, ih d]

theorem layer_process_ok (sig : α → α) (l : Layer α) (t : List α)
    (h : ∀ row ∈ l.Weights, row.length = t.length + 1) :
    Layer.Process sig l t
      = ({ Weights := l.Weights, Inputs := t,
           Outputs := (l.Weights.map (fun row => dotSum (t ++ [1]) row)).map sig },
        .ok ((l.Weights.map (fun row => dotSum (t ++ [1]) row)).map sig)) := by
  simp only [Layer.Process, Core.Process]
  rw [coreProcessRows_ok (t ++ [1]) l.Weights (by intro row hm; simp [h row hm])]

theorem processLayers_chain (sig : α → α) :
    ∀ (ls : List (Layer α)) (i o : Nat) (t : List α),
      coresChain (ls.map (fun l => l.Weights)) i o = true →
      t.length = i →
      ∃ out, (processLayers sig ls t).2 = .ok out ∧ out.length = o := by
  intro ls
  induction ls with
  | nil =>
    intro i o t hc ht
    simp only [List.map_nil, coresChain, beq_iff_eq] at hc
    exact ⟨t, rfl, by omega⟩
  | cons l ls ih =>
    intro i o t hc ht
    simp only [List.map_cons, coresChain, Bool.and_eq_true, bne_iff_ne, beq_iff_eq] at hc
    obtain ⟨⟨⟨hnz, hrect⟩, hin⟩, hrest⟩ := hc
    have hrows : ∀ row ∈ l.Weights, row.length = t.length + 1 := by
      intro row hr
      rw [rowsLen_of_rect l.Weights hrect row hr, hin, ht]
    have hlp := layer_process_ok sig l t hrows
    simp only [processLayers, hlp]
    have hlen2 : ((l.Weights.map (fun row => dotSum (t ++ [1]) row)).map sig).length
        = Core.OutputSize l.Weights := by simp [Core.OutputSize]
    obtain ⟨out, ho, hol⟩ := ih (Core.OutputSize l.Weights) o _ hrest hlen2
    rcases hp2 : processLayers sig ls
        ((l.Weights.map (fun row => dotSum (t ++ [1]) row)).map sig) with ⟨ls2, r2⟩
    rw [hp2] at ho
    simp only at ho
    exact ⟨out, by simp [ho], hol⟩

theorem network_process_congr_ok (sig : α → α) (n1 n2 : Network α) (t : List α)
    (h : n1.Layers.map (fun l => l.Weights) = n2.Layers.map (fun l => l.Weights)) :
    (Network.Process sig n1 t).2 = (Network.Process sig n2 t).2 ∧
    (∀ out, (Network.Process sig n1 t).2 = .ok out →
      Network.Process sig n1 t = Network.Process sig n2 t) := by
  obtain ⟨h2, h1⟩ := processLayers_congr sig n1.Layers n2.Layers t h
  constructor
  · rw [network_process_snd, network_process_snd, h2]
  · intro out hout
    have hout1 : (processLayers sig n1.Layers t).2 = .ok out := by
      rw [← network_process_snd]
      exact hout
    have hls := h1 out hout1
    have hout2 : (processLayers sig n2.Layers t).2 = .ok out := by rw [← h2]; exact hout1
    rcases hp1 : processLayers sig n1.Layers t with ⟨ls1, r1⟩
    rcases hp2 : processLayers sig n2.Layers t with ⟨ls2, r2⟩
    rw [hp1] at hout1 hls
    rw [hp2] at hout2 hls
    simp only at hout1 hout2 hls
    subst hout1
    subst hout2
    subst hls
    simp only [Network.Process, hp1, hp2]

theorem updateLayersLoop_batch (alpha : α) :
    ∀ (ls : List (Layer α)) (ds : List (List α)) (us : List (Core α)),
      ds.length = ls.length →
      List.Forall₂ (fun u w => DimsLike u w) us (ls.map (fun l => l.Weights)) →
      updateLayersLoop true alpha ls ds us
        = (ls, List.zipWith coreAddVal us
            (List.zipWith (fun l dl => calculateUpdate l dl alpha) ls ds), none) := by
  intro ls
  induction ls with
  | nil =>
    intro ds us _ hf
    cases hf
    rfl
  | cons l ls ih =>
    intro ds us hlen hf
    rw [List.map_cons] at hf
    cases hf with
    | cons hu hf2 =>
      rename_i u us2
      cases ds with
      | nil => simp at hlen
      | cons d0 ds2 =>
        simp only [updateLayersLoop]
        rw [if_pos trivial]
        have hui : Core.InputSize u
            = Core.InputSize (calculateUpdate l ((d0 :: ds2).headD []) alpha) := by
          rw [calculateUpdate_inputSize]
          exact hu.2
        have hul : u.length = (calculateUpdate l ((d0 :: ds2).headD []) alpha).length := by
          rw [calculateUpdate_length]
          exact hu.1
        rw [show ((u :: us2).headD []) = u from rfl, coreAdd_ok u _ hui hul]
        simp only [List.tail_cons]
        rw [ih ds2 us2 (by simpa using hlen) hf2]
        simp [List.zipWith_cons_cons]

theorem applyBatchUpdates_weights :
    ∀ (ls : List (Layer α)) (us : List (Core α)),
      List.Forall₂ (fun u w => DimsLike u w) us (ls.map (fun l => l.Weights)) →
      (applyBatchUpdates ls us).map (fun l => l.Weights)
        = List.zipWith coreAddVal (ls.map (fun l => l.Weights)) us := by
  intro ls
  induction ls with
  | nil => intro us hf; cases hf; rfl
  | cons l ls ih =>
    intro us hf
    rw [List.map_cons] at hf
    cases hf with
    | cons hu hf2 =>
      rename_i u us2
      simp only [applyBatchUpdates]
      have hadd : l.Weights.Add ((u :: us2).headD []) = .ok (coreAddVal l.Weights u) := by
        show l.Weights.Add u = _
        exact coreAdd_ok _ _ hu.2.symm hu.1.symm
      have h1 : (l.UpdateWeights ((u :: us2).headD [])).1
          = { l with Weights := coreAddVal l.Weights u } := by
        simp only [Layer.UpdateWeights, hadd]
      rw [h1, List.tail_cons]
      simp only [List.map_cons, List.zipWith_cons_cons]
      rw [ih us2 hf2]

theorem oneIterLoop_batch (sig : α → α) (alpha : α) (net0 : Network α)
    (inSz outSz : Nat)
    (hwf : coresChain (net0.Layers.map (fun l => l.Weights)) inSz outSz = true) :
    ∀ (data : TrainingData α) (net : Network α) (us : List (Core α)) (total : List α),
      net.Layers.map (fun l => l.Weights) = net0.Layers.map (fun l => l.Weights) →
      List.Forall₂ (fun u w => DimsLike u w) us (net0.Layers.map (fun l => l.Weights)) →
      (∀ d ∈ data, datumFits inSz outSz d = true) →
      (oneIterLoop sig alpha true net us total data).2.2.2 = none ∧
      (oneIterLoop sig alpha true net us total data).1.Layers.map (fun l => l.Weights)
        = net0.Layers.map (fun l => l.Weights) ∧
      (oneIterLoop sig alpha true net us total data).2.1
        = data.foldl (fun acc d =>
            List.zipWith coreAddVal acc (perExampleUpdates sig alpha net0 d)) us ∧
      List.Forall₂ (fun u w => DimsLike u w)
        (oneIterLoop sig alpha true net us total data).2.1
        (net0.Layers.map (fun l => l.Weights)) := by
  intro data
  induction data with
  | nil =>
    intro net us total hnet hf _
    exact ⟨rfl, hnet, rfl, hf⟩
  | cons d rest ih =>
    intro net us total hnet hf hfits
    have hd := hfits d (by simp)
    simp only [datumFits, Bool.and_eq_true, beq_iff_eq] at hd
    have hchain : coresChain (net.Layers.map (fun l => l.Weights)) inSz outSz = true := by
      rw [hnet]
      exact hwf
    obtain ⟨out, hok, hol⟩ :=
      processLayers_chain sig net.Layers inSz outSz d.Inputs hchain hd.1
    have hok2 : (Network.Process sig net d.Inputs).2 = .ok out := by
      rw [network_process_snd]
      exact hok
    have hproc0 : Network.Process sig net0 d.Inputs = Network.Process sig net d.Inputs :=
      ((network_process_congr_ok sig net net0 d.Inputs hnet).2 out hok2).symm
    simp only [oneIterLoop]
    rcases hp : Network.Process sig net d.Inputs with ⟨net1, res⟩
    rw [hp] at hok2 hproc0
    simp only at hok2
    subst hok2
    simp only []
    rw [if_neg (by simp [hd.2, hol])]
    have hw1 : net1.Layers.map (fun l => l.Weights)
        = net0.Layers.map (fun l => l.Weights) := by
      have hly := network_process_layers sig net d.Inputs
      rw [hp] at hly
      simp only at hly
      rw [hly, processLayers_weights sig net.Layers d.Inputs, hnet]
    have hf1 : List.Forall₂ (fun u w => DimsLike u w) us
        (net1.Layers.map (fun l => l.Weights)) := hw1.symm ▸ hf
    have hdl : (backwardDeltas net1.Layers (outputDeltas out d.Expected)).length
        = net1.Layers.length := backwardDeltas_length _ _
    have hupd := updateLayersLoop_batch alpha net1.Layers
      (backwardDeltas net1.Layers (outputDeltas out d.Expected)) us hdl hf1
    rw [hupd]
    simp only []
    have hperex : perExampleUpdates sig alpha net0 d
        = List.zipWith (fun l dl => calculateUpdate l dl alpha) net1.Layers
            (backwardDeltas net1.Layers (outputDeltas out d.Expected)) := by
      unfold perExampleUpdates
      rw [hproc0]
    have hcd := calcUpdates_dims alpha net1.Layers
      (backwardDeltas net1.Layers (outputDeltas out d.Expected)) hdl
    rw [hw1] at hcd
    have hus2 := dims_zipWith_add (net0.Layers.map (fun l => l.Weights)) us _ hf hcd
    obtain ⟨r1, r2, r3, r4⟩ := ih { net1 with Layers := net1.Layers }
      (List.zipWith coreAddVal us
        (List.zipWith (fun l dl => calculateUpdate l dl alpha) net1.Layers
          (backwardDeltas net1.Layers (outputDeltas out d.Expected))))
      (SquaredError.Accumulate total
        (List.zipWith (fun e a => (e - a) * (e - a)) d.Expected out))
      (by simpa using hw1) hus2 (fun d2 h2 => hfits d2 (by simp [h2]))
    refine ⟨r1, r2, ?_, r4⟩
    rw [r3, List.foldl_cons, hperex]

/-- C3: in batch mode, on a shape-consistent network and data, the weights
are untouched while the per-example loop runs — after any prefix of the
(possibly shuffled) examples the layers' weight matrices are exactly the
iteration's initial ones, so every example's forward pass sees the initial
weights — the iteration succeeds, and afterwards each layer's weights equal
the initial weights plus the elementwise sum of that layer's per-example
update matrices (each computed against the initial weights), applied exactly
once. -/
theorem OneIteration_batch_frame (sig : α → α) (rng : Nat → Nat) (ts : TrainerState α)
    (net : Network α) (data : TrainingData α) (inSz outSz : Nat)
    (hb : ts.BatchUpdate = true) (hwf : Network.wf net inSz outSz = true)
    (hne : data ≠ []) (hd : ∀ d ∈ data, datumFits inSz outSz d = true) :
    (∀ k : Nat,
      (oneIterLoop sig ts.Alpha true net (initUpdates net)
          (List.replicate (Network.OutputSize net) 0)
          ((shuffledData ts rng data).take k)).1.Layers.map (fun l => l.Weights)
        = net.Layers.map (fun l => l.Weights)) ∧
    (∃ mse, (Trainer.OneIteration sig ts rng net data).2 = .ok mse) ∧
    (Trainer.OneIteration sig ts rng net data).1.Layers.map (fun l => l.Weights)
      = List.zipWith coreAddVal (net.Layers.map (fun l => l.Weights))
          (accumulatedUpdates sig ts.Alpha net (shuffledData ts rng data)) := by
  have hchain : coresChain (net.Layers.map (fun l => l.Weights)) inSz outSz = true := by
    unfold Network.wf at hwf
    simp only [Bool.and_eq_true] at hwf
    exact hwf.2
  have hfits2 : ∀ d ∈ shuffledData ts rng data, datumFits inSz outSz d = true :=
    fun d h2 => hd d (shuffledData_mem ts rng data hne d h2)
  refine ⟨?_, ?_⟩
  · intro k
    exact (oneIterLoop_batch sig ts.Alpha net inSz outSz hchain
      ((shuffledData ts rng data).take k) net (initUpdates net)
      (List.replicate (Network.OutputSize net) 0) rfl (initUpdates_dims net)
      (fun d h2 => hfits2 d (List.mem_of_mem_take h2))).2.1
  · obtain ⟨r1, r2, r3, r4⟩ := oneIterLoop_batch sig ts.Alpha net inSz outSz hchain
      (shuffledData ts rng data) net (initUpdates net)
      (List.replicate (Network.OutputSize net) 0) rfl (initUpdates_dims net) hfits2
    simp only [Trainer.OneIteration, hb]
    rcases hloop : oneIterLoop sig ts.Alpha true net (initUpdates net)
        (List.replicate (Network.OutputSize net) 0) (shuffledData ts rng data)
        with ⟨net1, us1, total1, e⟩
    rw [hloop] at r1 r2 r3 r4
    simp only at r1 r2 r3 r4
    subst r1
    simp only []
    rw [if_pos trivial]
    refine ⟨⟨_, rfl⟩, ?_⟩
    have happ := applyBatchUpdates_weights net1.Layers us1 (r2.symm ▸ r4)
    simp only []
    rw [happ, r2, r3]
    rfl

/-- Witness for C3 at a one-layer network, one example, batch mode. -/
theorem OneIteration_batch_frame_witness :
    tsBatch.BatchUpdate = true ∧
      Network.wf cNet 1 1 = true ∧
      (([⟨[1], [0]⟩] : TrainingData ℚ) ≠ []) ∧
      (∀ d ∈ ([⟨[1], [0]⟩] : TrainingData ℚ), datumFits 1 1 d = true) ∧
      ((∃ mse, (Trainer.OneIteration idSig tsBatch zeroRng cNet [⟨[1], [0]⟩]).2
          = .ok mse) ∧
        (Trainer.OneIteration idSig tsBatch zeroRng cNet [⟨[1], [0]⟩]).1.Layers.map
            (fun l => l.Weights)
          = List.zipWith coreAddVal (cNet.Layers.map (fun l => l.Weights))
              (accumulatedUpdates idSig tsBatch.Alpha cNet
                (shuffledData tsBatch zeroRng [⟨[1], [0]⟩]))) :=
  ⟨rfl, by decide, by decide, by decide,
    (OneIteration_batch_frame idSig zeroRng tsBatch cNet [⟨[1], [0]⟩] 1 1 rfl
      (by decide) (by decide) (by decide)).2⟩

end Gofeedforward
